import Mathlib

/-!
# Verification of the crypto-bridge-server event cache and merge/format pipeline

A shallow embedding of `src/server.js`: the webhook ingestion
(`processArkhamEvent`), the bounded event buffer (`addArkhamEvent`,
`getRecentArkhamEvents`), the merge formatter (`formatForPineScript`), the
rate-limited upstream fetch (`fetchNewsFromAPI`) and the `/crypto-news` and
`/arkham-webhook` request handlers, together with theorems about them.

Modelling conventions:
* JavaScript strings are Lean `String`s; the JS string operations used by the
  source (`split`, `join`, `trim`, `toUpperCase`, `replace` with the two fixed
  regexes, `substring`) are re-implemented structurally on `List Char` so that
  they evaluate by `rfl`/`decide`.  `\s` is modelled by the ASCII whitespace
  characters.
* JS numbers are modelled as `Int` (all numeric values appearing in the claims
  are integral; float rounding in `toFixed` is modelled as integer rounding).
* Wall-clock reads (`Date.now()`) become explicit `now` parameters:
  milliseconds for the cache logic, unix seconds for event timestamps,
  matching the two forms used by the source.
* Dynamically-typed webhook payload leaves are modelled by `JVal`
  (string or number); a JS `TypeError` thrown by calling a string method on a
  non-string is modelled by `Except Unit`, and the `try/catch` of
  `processArkhamEvent` by collapsing the exception to `none`.
-/

namespace CryptoBridge

/-! ## Characters and JS-style string primitives -/

/-- ASCII model of the JS regex class `\s`. -/
def isWS (c : Char) : Bool :=
  c = ' ' || c = '\t' || c = '\n' || c = '\r'

/-- Model of `.replace(/[|;]/g, ' ')`: each `|` or `;` becomes a space. -/
def replaceDelims (cs : List Char) : List Char :=
  cs.map fun c => if c = '|' || c = ';' then ' ' else c

/-- Worker for `.replace(/\s+/g, ' ')`: the flag records whether the previous
input character was whitespace (so a run contributes a single `' '`). -/
def collapseWSAux : Bool → List Char → List Char
  | _, [] => []
  | prevWS, c :: rest =>
    if isWS c then
      (if prevWS then [] else [' ']) ++ collapseWSAux true rest
    else
      c :: collapseWSAux false rest

/-- Model of `.replace(/\s+/g, ' ')`. -/
def collapseWS (cs : List Char) : List Char :=
  collapseWSAux false cs

/-- Model of `.trim()` (on collapsed input all whitespace is already `' '`). -/
def trimChars (cs : List Char) : List Char :=
  ((cs.dropWhile isWS).reverse.dropWhile isWS).reverse

/-- `title.replace(/[|;]/g, ' ').replace(/\s+/g, ' ').trim()` —
the title sanitization shared by `formatForPineScript` (line 183) and
`processArkhamEvent` (line 123). -/
def jsSanitize (s : String) : String :=
  String.mk (trimChars (collapseWS (replaceDelims s.data)))

/-- The article-title cleaning of `formatForPineScript` (lines 183-187):
sanitize, then `.substring(0, 100)`. -/
def cleanTitleStr (s : String) : String :=
  String.mk ((trimChars (collapseWS (replaceDelims s.data))).take 100)

/-- Worker for `String.prototype.split` on a single separator character. -/
def splitCharAux (sep : Char) : List Char → List Char → List (List Char)
  | [], acc => [acc.reverse]
  | c :: rest, acc =>
    if c = sep then acc.reverse :: splitCharAux sep rest []
    else splitCharAux sep rest (c :: acc)

/-- Model of JS `s.split(sep)` for a one-character separator. -/
def splitChar (sep : Char) (cs : List Char) : List (List Char) :=
  splitCharAux sep cs []

/-- Model of JS `arr.join(sep)` for a one-character separator. -/
def intercalateChar (sep : Char) : List (List Char) → List Char
  | [] => []
  | [x] => x
  | x :: y :: rest => x ++ sep :: intercalateChar sep (y :: rest)

/-- Model of JS `s.toUpperCase()` (ASCII). -/
def jsToUpperS (s : String) : String :=
  String.mk (s.data.map Char.toUpper)

/-- Model of JS `s.trim()` on a `String`. -/
def jsTrimS (s : String) : String :=
  String.mk (trimChars s.data)

/-- JS `\w` word-character class: `[A-Za-z0-9_]`. -/
def wordCharB (c : Char) : Bool :=
  c.isAlphanum || c = '_'

/-- Does `pat` occur literally at the head of `cs`? -/
def listStartsWith : List Char → List Char → Bool
  | [], _ => true
  | _ :: _, [] => false
  | p :: ps, c :: cs => p = c && listStartsWith ps cs

/-- Is the character after a match position (if any) a non-word character? -/
def boundaryAfter (pat text : List Char) : Bool :=
  match text.drop pat.length with
  | [] => true
  | c :: _ => !wordCharB c

/-- Worker for the word-boundary regex test `\bPAT\b` (case already folded):
`prev` is the character preceding the current position. -/
def wordMatchAux (pat : List Char) : Option Char → List Char → Bool
  | prev, [] =>
    -- an empty pattern can still match at the very end of the text
    (pat.isEmpty && (match prev with | none => false | some p => wordCharB p))
  | prev, c :: rest =>
    ((match prev with | none => true | some p => !wordCharB p) &&
      listStartsWith pat (c :: rest) && boundaryAfter pat (c :: rest))
    || wordMatchAux pat (some c) rest

/-- Model of `new RegExp('\\b' + pat + '\\b', 'i').test(text)` for a pattern
without regex metacharacters (the tickers and coin names used by the source;
regex-syntax errors raised by metacharacters in user symbols are outside the
model). -/
def wordMatch (pat text : String) : Bool :=
  wordMatchAux (jsToUpperS pat).data none (jsToUpperS text).data

/-- Numeric value of a digit run (used only as the sort key). -/
def digitsVal (cs : List Char) : Nat :=
  cs.foldl (fun acc c => 10 * acc + (c.toNat - '0'.toNat)) 0

/-- Model of `parseInt` as used by the sort comparator: optional `-` sign then
leading decimal digits; `NaN` (no digits) is mapped to `0` — every record the
formatter sorts starts with an integer numeral, so the `NaN` case (and
`parseInt`'s leading-whitespace and `+`-sign handling) is unreachable
there. -/
def jsParseIntChars (cs : List Char) : Int :=
  match cs with
  | [] => 0
  | c :: rest =>
    if c = '-' then
      if (rest.takeWhile Char.isDigit).isEmpty then 0
      else -(digitsVal (rest.takeWhile Char.isDigit) : Int)
    else
      if ((c :: rest).takeWhile Char.isDigit).isEmpty then 0
      else (digitsVal ((c :: rest).takeWhile Char.isDigit) : Int)

/-- Model of JS number-to-string conversion for integral values
(template-literal interpolation `${timestamp}`). -/
def jsNumToString : Int → String
  | Int.ofNat m => Nat.repr m
  | Int.negSucc m => "-" ++ Nat.repr (m + 1)

/-! ## Data model -/

/-- A dynamically-typed JSON leaf value of a webhook payload: the two shapes
that distinguish the behaviours exercised by the source (string methods
succeed on strings and throw on other primitives). -/
inductive JVal where
  | jstr : String → JVal
  | jnum : Int → JVal
deriving DecidableEq, Repr

/-- JS truthiness for a leaf value (`""` and `0` are falsy). -/
def truthy : JVal → Bool
  | .jstr s => s ≠ ""
  | .jnum v => v ≠ 0

/-- `v.toUpperCase()`: succeeds on a string, throws a `TypeError` otherwise. -/
def jsToUpperVal : JVal → Except Unit String
  | .jstr s => .ok (jsToUpperS s)
  | .jnum _ => .error ()

/-- `v.substring(0, 100)`: succeeds on a string, throws otherwise. -/
def jsSubstring100 : JVal → Except Unit String
  | .jstr s => .ok (String.mk (s.data.take 100))
  | .jnum _ => .error ()

/-- `parseFloat(v)`: a number parses to itself; a string parses to its leading
integer numeral (fractional parses, irrelevant to every claim, are modelled as
`NaN`); `none` is `NaN`, and every `NaN` comparison below is false. -/
def jsParseFloat : JVal → Option Int
  | .jnum v => some v
  | .jstr s => s.toInt?

/-- The `transaction` object of an Arkham webhook payload (lines 84-109). -/
structure Transaction where
  token : Option JVal
  asset : Option JVal
  symbol : Option JVal
  value : Option JVal
deriving DecidableEq, Repr

/-- The `alert` object of an Arkham webhook payload (line 113). -/
structure Alert where
  name : Option JVal
deriving DecidableEq, Repr

/-- An Arkham webhook payload: the fields `processArkhamEvent` inspects, plus
a `timestamp` field that the source never reads (claim C9). -/
structure Webhook where
  transaction : Option Transaction
  alert : Option Alert
  description : Option JVal
  message : Option JVal
  timestamp : Option JVal
deriving DecidableEq, Repr

/-- An on-chain event as built by `processArkhamEvent` (lines 125-132). -/
structure ArkhamEvent where
  timestamp : Int
  category : String
  symbol : String
  title : String
  amount : String
  raw : Webhook
deriving DecidableEq, Repr

/-- The computed fields of an event, without the opaque `raw` passthrough. -/
structure EventFields where
  timestamp : Int
  category : String
  symbol : String
  title : String
  amount : String
deriving DecidableEq, Repr

/-- Attach the raw payload (the `raw: webhookData` field of line 131). -/
def EventFields.withRaw (f : EventFields) (w : Webhook) : ArkhamEvent :=
  ⟨f.timestamp, f.category, f.symbol, f.title, f.amount, w⟩

/-- Forget the raw payload of an event. -/
def stripRaw (e : ArkhamEvent) : EventFields :=
  ⟨e.timestamp, e.category, e.symbol, e.title, e.amount⟩

/-- A news article as consumed by `formatForPineScript`.  The publish date is
modelled as its parsed unix-seconds value (`pub = none` covers both an absent
and an unparsable date, for which the source falls back to the current
time). -/
structure Article where
  title : Option String
  description : Option String
  pub : Option Int
deriving DecidableEq, Repr

/-! ## `getCoinName` (lines 51-70) -/

/-- The ticker-to-name lookup table; an unknown symbol maps to itself (the JS
object literal repeats the `DOT` key with the same value, which is a no-op). -/
def getCoinName (symbol : String) : String :=
  let u := jsToUpperS symbol
  if u = "BTC" then "Bitcoin"
  else if u = "ETH" then "Ethereum"
  else if u = "ADA" then "Cardano"
  else if u = "DOT" then "Polkadot"
  else if u = "SOL" then "Solana"
  else if u = "MATIC" then "Polygon"
  else if u = "LINK" then "Chainlink"
  else if u = "UNI" then "Uniswap"
  else if u = "AAVE" then "Aave"
  else if u = "DOGE" then "Dogecoin"
  else if u = "XRP" then "Ripple"
  else if u = "LTC" then "Litecoin"
  else if u = "BCH" then "Bitcoin Cash"
  else if u = "AVAX" then "Avalanche"
  else symbol

/-! ## Webhook ingestion: `processArkhamEvent` (lines 73-138) -/

/-- The first present-and-truthy value of a field list (the
`if (tx.token) ... else if (tx.asset) ... else if (tx.symbol)` cascade). -/
def firstTruthy : List (Option JVal) → Option JVal
  | [] => none
  | o :: rest =>
    match o with
    | some v => if truthy v then some v else firstTruthy rest
    | none => firstTruthy rest

/-- The symbol detection of lines 88-94: the first truthy of
`token`/`asset`/`symbol` is upper-cased (throwing on a non-string); if none is
truthy the symbol keeps its default `'CRYPTO'`. -/
def txSymbol (tx : Transaction) : Except Unit String :=
  match firstTruthy [tx.token, tx.asset, tx.symbol] with
  | some v => jsToUpperVal v
  | none => .ok "CRYPTO"

/-- `(value / 1000000).toFixed(1)` for an integral value, with `$`/`M`
wrapping (line 100); float rounding modelled as integer rounding. -/
def amountM (x : Int) : String :=
  let n := (x * 10 + 500000) / 1000000
  "$" ++ jsNumToString (n / 10) ++ "." ++ jsNumToString (n % 10) ++ "M"

/-- `(value / 1000).toFixed(0)` with `$`/`K` wrapping (line 103). -/
def amountK (x : Int) : String :=
  "$" ++ jsNumToString ((x + 500) / 1000) ++ "K"

/-- The transaction-value formatting of lines 97-108, returning
`(title, amount)`; when `value` is absent or falsy the title keeps its
default. -/
def txTitleAmount (symbol : String) (tx : Transaction) : String × String :=
  match tx.value with
  | some v =>
    if truthy v then
      match jsParseFloat v with
      | some x =>
        if x > 1000000 then
          ("Large " ++ symbol ++ " transfer: " ++ amountM x, amountM x)
        else if x > 1000 then
          (symbol ++ " transfer: " ++ amountK x, amountK x)
        else (symbol ++ " movement detected", "")
      | none => (symbol ++ " movement detected", "")
    else ("On-chain activity detected", "")
  | none => ("On-chain activity detected", "")

/-- A present-and-truthy optional field, else `none`. -/
def truthyField : Option JVal → Option JVal
  | some v => if truthy v then some v else none
  | none => none

/-- The fallback-title cascade of lines 112-120: `alert.name`, then
`description.substring(0, 100)`, then `message.substring(0, 100)`; returns
`none` when the title is left unchanged.  A truthy non-string `alert.name`
is assigned to `title` and only makes `title.replace` throw at line 123, so it
is reported as the same exception here. -/
def fallbackTitle (alert : Option Alert) (description message : Option JVal) :
    Except Unit (Option String) :=
  match truthyField (match alert with | some al => al.name | none => none) with
  | some (.jstr s) => .ok (some s)
  | some (.jnum _) => .error ()
  | none =>
    match truthyField description with
    | some v => (jsSubstring100 v).map some
    | none =>
      match truthyField message with
      | some v => (jsSubstring100 v).map some
      | none => .ok none

/-- Lines 112-130: run the fallback cascade when the title is still the
default, sanitize, and assemble the event fields. -/
def mkFieldsFrom (now : Int) (alert : Option Alert)
    (description message : Option JVal) (symbol title1 amount : String) :
    Except Unit EventFields :=
  if title1 = "" || title1 = "On-chain activity detected" then
    match fallbackTitle alert description message with
    | .error e => .error e
    | .ok none => .ok ⟨now, "ONCHAIN", symbol, jsSanitize title1, amount⟩
    | .ok (some t2) => .ok ⟨now, "ONCHAIN", symbol, jsSanitize t2, amount⟩
  else .ok ⟨now, "ONCHAIN", symbol, jsSanitize title1, amount⟩

/-- The field computation of `processArkhamEvent` (lines 74-130), over the
four payload fields the source reads. -/
def processCore (now : Int) (transaction : Option Transaction)
    (alert : Option Alert) (description message : Option JVal) :
    Except Unit EventFields :=
  match transaction with
  | some tx =>
    match txSymbol tx with
    | .error e => .error e
    | .ok sym =>
      let ta := txTitleAmount sym tx
      mkFieldsFrom now alert description message sym ta.1 ta.2
  | none =>
    mkFieldsFrom now alert description message "CRYPTO"
      "On-chain activity detected" ""

/-- The body of `processArkhamEvent` before its `try/catch` (lines 74-132);
`now` is `Math.floor(Date.now() / 1000)` and the whole payload is stored as
`raw`. -/
def processArkhamEventE (now : Int) (w : Webhook) : Except Unit ArkhamEvent :=
  (processCore now w.transaction w.alert w.description w.message).map
    fun f => f.withRaw w

/-- `processArkhamEvent` (lines 73-138): the `catch` turns any extraction
exception into `null`. -/
def processArkhamEvent (now : Int) (w : Webhook) : Option ArkhamEvent :=
  match processArkhamEventE now w with
  | .ok e => some e
  | .error _ => none

/-! ## Event buffer (lines 140-156) -/

/-- `MAX_ARKHAM_EVENTS` (line 27). -/
def MAX_ARKHAM_EVENTS : Nat := 100

/-- `addArkhamEvent` (lines 140-151): a null event is ignored; otherwise
`unshift` then truncate with `slice(0, 100)` when over capacity. -/
def addArkhamEvent (event : Option ArkhamEvent) (buf : List ArkhamEvent) :
    List ArkhamEvent :=
  match event with
  | none => buf
  | some e =>
    let buf' := e :: buf
    if buf'.length > MAX_ARKHAM_EVENTS then buf'.take MAX_ARKHAM_EVENTS
    else buf'

/-- A sequence of (non-null) pushes, oldest first. -/
def pushAll (es : List ArkhamEvent) (buf : List ArkhamEvent) :
    List ArkhamEvent :=
  es.foldl (fun b e => addArkhamEvent (some e) b) buf

/-- `getRecentArkhamEvents` (lines 153-156): keep events with
`timestamp > now - hoursBack*3600` (strict, as in the source). -/
def getRecentArkhamEvents (now : Int) (hoursBack : Int)
    (events : List ArkhamEvent) : List ArkhamEvent :=
  events.filter fun e => decide (now - hoursBack * 3600 < e.timestamp)

/-! ## Merge formatter: `formatForPineScript` (lines 158-225) -/

/-- Line 160: `requestSymbols.toUpperCase().split(',').map(s => s.trim())`.
The JS `Set` built from this list is modelled by the list itself: `has` is
list membership and first-match iteration is unaffected by duplicates. -/
def symbolSegs (s : String) : List String :=
  (splitChar ',' (jsToUpperS s).data).map fun seg => String.mk (trimChars seg)

/-- The symbol set of line 160: a falsy (absent or empty) `requestSymbols`
yields no set. -/
def symbolSetOf (requestSymbols : Option String) : Option (List String) :=
  match requestSymbols with
  | some s => if s = "" then none else some (symbolSegs s)
  | none => none

/-- Line 175: `article.title + ' ' + (article.description || '')`; a missing
title is coerced by JS string concatenation to the text `"undefined"`. -/
def articleText (a : Article) : List Char :=
  (match a.title with
   | some t => t.data
   | none => "undefined".data) ++ ' ' ::
    (match a.description with
     | some d => d.data
     | none => [])

/-- One step of the symbol-detection loop of lines 172-179. -/
def symbolMatches (sym : String) (text : List Char) : Bool :=
  wordMatchAux (jsToUpperS sym).data none (text.map Char.toUpper) ||
    wordMatchAux (jsToUpperS (getCoinName sym)).data none (text.map Char.toUpper)

/-- Lines 171-180: the first requested symbol whose ticker or coin name
occurs (word-bounded, case-insensitive) in the article text; default
`'CRYPTO'`. -/
def detectSymbolAux (text : List Char) : List String → String
  | [] => "CRYPTO"
  | sym :: rest =>
    if symbolMatches sym text then sym else detectSymbolAux text rest

/-- `article.title || 'No title'` (line 183). -/
def articleTitleOr (a : Article) : String :=
  match a.title with
  | some t => if t = "" then "No title" else t
  | none => "No title"

/-- A serialized record `${ts};${cat};${sym};${title}` (lines 190 and 210). -/
def mkRecord (ts : Int) (cat sym title : String) : String :=
  String.mk ((jsNumToString ts).data ++ ';' :: (cat.data ++ ';' ::
    (sym.data ++ ';' :: title.data)))

/-- The news record of one article (lines 164-190); an absent or unparsable
publish date falls back to the current time. -/
def newsRecord (sset : Option (List String)) (now : Int) (a : Article) :
    String :=
  let ts := a.pub.getD now
  let sym := match sset with
    | some l => detectSymbolAux (articleText a) l
    | none => "CRYPTO"
  mkRecord ts "NEWS" sym (cleanTitleStr (articleTitleOr a))

/-- All news records, in article order (the per-article `try/catch` of
lines 165-194 never fires in the typed model). -/
def newsRecords (sset : Option (List String)) (now : Int)
    (articles : List Article) : List String :=
  articles.map (newsRecord sset now)

/-- Line 205: an on-chain event is skipped iff a symbol set exists, does not
contain its symbol, and its symbol is not `'CRYPTO'`. -/
def passesSymbolFilter (sset : Option (List String)) (e : ArkhamEvent) :
    Bool :=
  match sset with
  | none => true
  | some l => !(!(l.contains e.symbol) && e.symbol ≠ "CRYPTO")

/-- The on-chain record of one event (line 210). -/
def onchainRecord (e : ArkhamEvent) : String :=
  mkRecord e.timestamp "ONCHAIN" e.symbol e.title

/-- Lines 202-214: emit the records of the filtered events, in buffer
order. -/
def onchainRecords (sset : Option (List String))
    (recents : List ArkhamEvent) : List String :=
  recents.filterMap fun e =>
    if passesSymbolFilter sset e then some (onchainRecord e) else none

/-- The sort key of the comparator at lines 218-222:
`parseInt(record.split(';')[0])`. -/
def recKey (r : String) : Int :=
  jsParseIntChars ((splitChar ';' r.data).headD [])

/-- The comparator's order: `(a, b) => keyB - keyA` sorts by key
descending. -/
def recOrder (a b : String) : Prop :=
  recKey b ≤ recKey a

instance : DecidableRel recOrder := fun _ _ => Int.decLe _ _

/-- Lines 217-222: JS `Array.prototype.sort` is stable (ES2019), and a stable
sort under the total preorder `recOrder` is extensionally insertion sort. -/
def sortRecords (recs : List String) : List String :=
  recs.insertionSort recOrder

/-- `formatForPineScript` (lines 158-225): build news records, append the
symbol-filtered records of the last 24 hours of buffered events, sort by
timestamp descending, join with `|`.  `now` is unix seconds. -/
def formatForPineScript (articles : List Article)
    (requestSymbols : Option String) (includeArkham : Bool)
    (events : List ArkhamEvent) (now : Int) : String :=
  let sset := symbolSetOf requestSymbols
  let newsRecs := newsRecords sset now articles
  let onRecs :=
    if includeArkham then
      onchainRecords sset (getRecentArkhamEvents now 24 events)
    else []
  String.mk (intercalateChar '|' ((sortRecords (newsRecs ++ onRecs)).map
    String.data))

/-- The records of a formatted output, as a consumer splits them on `|`
(an empty output carries no records). -/
def recordsOf (s : String) : List String :=
  if s = "" then [] else (splitChar '|' s.data).map String.mk

/-- Is a record an on-chain record?  Field 1 of the `;`-split is the
category. -/
def isOnchainRecord (r : String) : Bool :=
  ((splitChar ';' r.data).map String.mk).get? 1 = some "ONCHAIN"

/-! ## Rate limiter and upstream fetch (lines 34-41, 227-305) -/

/-- `CONFIG.MAX_REQUESTS_PER_DAY` (line 15). -/
def MAX_REQUESTS_PER_DAY : Nat := 200

/-- The rate-limiter state: `dailyRequestCount` and `lastResetDate`
(lines 22-23); the date is the opaque `toDateString()` value. -/
structure RateState where
  count : Nat
  lastResetDate : String
deriving DecidableEq, Repr

/-- `resetDailyCountIfNeeded` (lines 34-41). -/
def resetDailyCountIfNeeded (today : String) (st : RateState) : RateState :=
  if today ≠ st.lastResetDate then ⟨0, today⟩ else st

/-- The two failure modes of `fetchNewsFromAPI`. -/
inductive FetchErr where
  | rateLimited
  | upstream
deriving DecidableEq, Repr

/-- `fetchNewsFromAPI` (lines 227-305) as a state transition on the limiter:
lazily reset, reject when the counter has reached the quota, otherwise
perform the upstream call (its outcome is the `upstream` parameter; query
building only shapes that call) and increment the counter on success. -/
def fetchNewsFromAPI (today : String)
    (upstream : Except Unit (List Article)) (st : RateState) :
    Except FetchErr (List Article) × RateState :=
  let st1 := resetDailyCountIfNeeded today st
  if st1.count ≥ MAX_REQUESTS_PER_DAY then (.error .rateLimited, st1)
  else
    match upstream with
    | .ok articles => (.ok articles, ⟨st1.count + 1, st1.lastResetDate⟩)
    | .error _ => (.error .upstream, st1)

/-- Iterated successful-upstream calls (for the daily-quota property). -/
def iterateFetch (today : String) (articles : List Article) :
    Nat → RateState → RateState
  | 0, st => st
  | n + 1, st => iterateFetch today articles n
      (fetchNewsFromAPI today (.ok articles) st).2

/-! ## Response cache and the `/crypto-news` handler (lines 43-49, 325-404) -/

/-- `CONFIG.CACHE_DURATION` in milliseconds (line 14). -/
def CACHE_DURATION : Int := 30 * 60 * 1000

/-- A cache entry (lines 379-383).  `articles` is stored by the source as a
JSON string and re-parsed on read; the `JSON.parse ∘ JSON.stringify` round
trip is modelled as the identity. -/
structure CacheEntry where
  data : String
  articles : List Article
  timestamp : Int
deriving DecidableEq, Repr

/-- JS `Map` lookup on the insertion-ordered association list. -/
def mapGet (m : List (String × CacheEntry)) (k : String) :
    Option CacheEntry :=
  match m with
  | [] => none
  | (k', v) :: rest => if k' = k then some v else mapGet rest k

/-- JS `Map.set`: overwrite in place, else append (insertion order kept). -/
def mapSet (m : List (String × CacheEntry)) (k : String) (v : CacheEntry) :
    List (String × CacheEntry) :=
  match m with
  | [] => [(k, v)]
  | (k', v') :: rest =>
    if k' = k then (k, v) :: rest else (k', v') :: mapSet rest k v

/-- `s || default` for an optional query parameter (empty string is falsy). -/
def orDefaultStr (o : Option String) (d : String) : String :=
  match o with
  | some s => if s = "" then d else s
  | none => d

/-- `generateCacheKey` (lines 43-45). -/
def generateCacheKey (symbols keywords timeframe : Option String) : String :=
  orDefaultStr symbols "all" ++ "_" ++ orDefaultStr keywords "general"
    ++ "_" ++ orDefaultStr timeframe "24"

/-- The validation of lines 330-334: more than 5 comma-separated symbols. -/
def tooManySymbols (symbols : Option String) : Bool :=
  match symbols with
  | some s => s ≠ "" && (splitChar ',' s.data).length > 5
  | none => false

/-- The whole mutable server state. -/
structure ServerState where
  cache : List (String × CacheEntry)
  rl : RateState
  arkhamEvents : List ArkhamEvent
deriving Repr

/-- The `/crypto-news` responses the model distinguishes. -/
inductive HttpResult where
  | ok (body : String)
  | badRequest
  | unavailable
deriving DecidableEq, Repr

/-- The fetch-and-fallback part of the `/crypto-news` handler
(lines 349-395), entered when no fresh cache entry exists; `cached` is the
(possibly stale) entry found for the key.  The stored `articles` JSON string
is always truthy (`JSON.stringify` of an array is never empty), so the
`cachedData && cachedData.articles` guard of line 355 is entry presence. -/
def cryptoNewsFetchPath (nowMs : Int) (today : String)
    (symbols : Option String) (key : String) (cached : Option CacheEntry)
    (upstream : Except Unit (List Article)) (st : ServerState) :
    HttpResult × ServerState :=
  let nowSec := nowMs / 1000
  match fetchNewsFromAPI today upstream st.rl with
  | (.ok articles, rl') =>
    let formatted :=
      formatForPineScript articles symbols true st.arkhamEvents nowSec
    let c1 := mapSet st.cache key ⟨formatted, articles, nowMs⟩
    let c2 := if c1.length > 50 then c1.tail else c1
    (.ok formatted, { st with cache := c2, rl := rl' })
  | (.error _, rl') =>
    match cached with
    | some ce =>
      (.ok (formatForPineScript ce.articles symbols true st.arkhamEvents
        nowSec), { st with rl := rl' })
    | none =>
      let f0 := formatForPineScript [] symbols true st.arkhamEvents nowSec
      if f0 ≠ "" then (.ok f0, { st with rl := rl' })
      else (.unavailable, { st with rl := rl' })

/-- The `GET /crypto-news` handler (lines 325-404).  `nowMs` is
`Date.now()`; seconds-level times are `Math.floor(nowMs / 1000)` (`nowMs` is
non-negative in reality, where `Int` division is floor division). -/
def cryptoNewsHandler (nowMs : Int) (today : String)
    (symbols keywords timeframe : Option String)
    (upstream : Except Unit (List Article)) (st : ServerState) :
    HttpResult × ServerState :=
  if tooManySymbols symbols then (.badRequest, st)
  else
    let key := generateCacheKey symbols keywords timeframe
    let nowSec := nowMs / 1000
    match mapGet st.cache key with
    | some ce =>
      if nowMs - ce.timestamp < CACHE_DURATION then
        (.ok (formatForPineScript ce.articles symbols true st.arkhamEvents
          nowSec), st)
      else cryptoNewsFetchPath nowMs today symbols key (some ce) upstream st
    | none => cryptoNewsFetchPath nowMs today symbols key none upstream st

/-! ## The `/arkham-webhook` handler (lines 444-477) -/

/-- The webhook responses: 200 with the event summary, or 400. -/
inductive WebhookResult where
  | ok (symbol title : String) (timestamp : Int)
  | badRequest
deriving DecidableEq, Repr

/-- `POST /arkham-webhook`: feed the body to ingestion; on an event, store it
and answer 200 with its summary, else answer 400. -/
def arkhamWebhookHandler (now : Int) (body : Webhook)
    (events : List ArkhamEvent) : WebhookResult × List ArkhamEvent :=
  match processArkhamEvent now body with
  | some e => (.ok e.symbol e.title e.timestamp, addArkhamEvent (some e) events)
  | none => (.badRequest, events)

/-- The all-absent payload (`{}` over the modelled fields). -/
def emptyWebhook : Webhook := ⟨none, none, none, none, none⟩

/-! ## Numeral character facts -/

theorem digitChar_isDigit {m : Nat} (h : m < 10) :
    (Nat.digitChar m).isDigit = true := by
  interval_cases m <;> decide

theorem toDigitsCore_digits :
    ∀ (fuel n : Nat) (ds : List Char), (∀ c ∈ ds, c.isDigit = true) →
      ∀ c ∈ Nat.toDigitsCore 10 fuel n ds, c.isDigit = true := by
  intro fuel
  induction fuel with
  | zero => intro n ds h c hc; exact h c hc
  | succ fuel ih =>
    intro n ds h c hc
    rw [Nat.toDigitsCore] at hc
    by_cases h10 : n / 10 = 0
    · rw [if_pos h10] at hc
      rcases List.mem_cons.mp hc with hc2 | hc2
      · exact hc2 ▸ digitChar_isDigit (Nat.mod_lt _ (by decide))
      · exact h c hc2
    · rw [if_neg h10] at hc
      refine ih (n / 10) _ ?_ c hc
      intro c' hc'
      rcases List.mem_cons.mp hc' with hc2 | hc2
      · exact hc2 ▸ digitChar_isDigit (Nat.mod_lt _ (by decide))
      · exact h c' hc2

theorem natRepr_digits {n : Nat} {c : Char} (h : c ∈ (Nat.repr n).data) :
    c.isDigit = true := by
  have : (Nat.repr n).data = Nat.toDigitsCore 10 (n + 1) n [] := rfl
  rw [this] at h
  exact toDigitsCore_digits (n + 1) n [] (by intro c hc; cases hc) c h

theorem jsNumToString_chars {i : Int} {c : Char}
    (h : c ∈ (jsNumToString i).data) : c.isDigit = true ∨ c = '-' := by
  cases i with
  | ofNat m => exact Or.inl (natRepr_digits h)
  | negSucc m =>
    simp only [jsNumToString, String.data_append] at h
    rcases List.mem_append.mp h with h | h
    · right
      simpa using h
    · exact Or.inl (natRepr_digits h)

theorem isDigit_ne_pipe {c : Char} (h : c.isDigit = true) : c ≠ '|' := by
  intro e; rw [e] at h; exact absurd h (by decide)

theorem isDigit_ne_semi {c : Char} (h : c.isDigit = true) : c ≠ ';' := by
  intro e; rw [e] at h; exact absurd h (by decide)

theorem pipe_not_mem_num (i : Int) : '|' ∉ (jsNumToString i).data := by
  intro h
  rcases jsNumToString_chars h with h' | h'
  · exact isDigit_ne_pipe h' rfl
  · cases h'

theorem semi_not_mem_num (i : Int) : ';' ∉ (jsNumToString i).data := by
  intro h
  rcases jsNumToString_chars h with h' | h'
  · exact isDigit_ne_semi h' rfl
  · cases h'

/-! ## Sanitizer facts -/

theorem mem_replaceDelims {c : Char} {l : List Char}
    (h : c ∈ replaceDelims l) : c = ' ' ∨ (c ∈ l ∧ c ≠ '|' ∧ c ≠ ';') := by
  simp only [replaceDelims, List.mem_map] at h
  obtain ⟨a, ha, hc⟩ := h
  by_cases hp : a = '|' ∨ a = ';'
  · left
    rcases hp with hp | hp <;> simp [hp] at hc <;> exact hc.symm
  · right
    push_neg at hp
    rw [if_neg (by simpa using hp)] at hc
    exact hc ▸ ⟨ha, hp.1, hp.2⟩

theorem pipe_not_mem_replaceDelims (l : List Char) :
    '|' ∉ replaceDelims l := by
  intro h
  rcases mem_replaceDelims h with h' | h'
  · cases h'
  · exact h'.2.1 rfl

theorem semi_not_mem_replaceDelims (l : List Char) :
    ';' ∉ replaceDelims l := by
  intro h
  rcases mem_replaceDelims h with h' | h'
  · cases h'
  · exact h'.2.2 rfl

theorem mem_collapseWSAux {c : Char} :
    ∀ (b : Bool) (l : List Char), c ∈ collapseWSAux b l → c = ' ' ∨ c ∈ l := by
  intro b l
  induction l generalizing b with
  | nil => intro h; cases h
  | cons a rest ih =>
    intro h
    simp only [collapseWSAux] at h
    by_cases hws : isWS a = true
    · rw [if_pos hws] at h
      rcases List.mem_append.mp h with h2 | h2
      · left
        cases b
        · simpa using h2
        · simp at h2
      · rcases ih true h2 with h3 | h3
        · exact Or.inl h3
        · exact Or.inr (List.mem_cons_of_mem a h3)
    · rw [if_neg hws] at h
      rcases List.mem_cons.mp h with h2 | h2
      · exact Or.inr (h2 ▸ List.mem_cons_self a rest)
      · rcases ih false h2 with h3 | h3
        · exact Or.inl h3
        · exact Or.inr (List.mem_cons_of_mem a h3)

theorem mem_collapseWS {c : Char} {l : List Char} (h : c ∈ collapseWS l) :
    c = ' ' ∨ c ∈ l :=
  mem_collapseWSAux false l h

theorem mem_trimChars {c : Char} {l : List Char} (h : c ∈ trimChars l) :
    c ∈ l := by
  simp only [trimChars, List.mem_reverse] at h
  have h1 := (List.dropWhile_suffix isWS).subset h
  rw [List.mem_reverse] at h1
  exact (List.dropWhile_suffix isWS).subset h1

theorem pipe_not_mem_sanitized (s : String) : '|' ∉ (jsSanitize s).data := by
  intro h
  have h1 := mem_trimChars h
  rcases mem_collapseWS h1 with h2 | h2
  · cases h2
  · exact pipe_not_mem_replaceDelims _ h2

theorem semi_not_mem_sanitized (s : String) : ';' ∉ (jsSanitize s).data := by
  intro h
  have h1 := mem_trimChars h
  rcases mem_collapseWS h1 with h2 | h2
  · cases h2
  · exact semi_not_mem_replaceDelims _ h2

theorem pipe_not_mem_cleanTitle (s : String) :
    '|' ∉ (cleanTitleStr s).data := by
  intro h
  have h0 : '|' ∈ (jsSanitize s).data := List.take_subset _ _ h
  exact pipe_not_mem_sanitized s h0

theorem semi_not_mem_cleanTitle (s : String) :
    ';' ∉ (cleanTitleStr s).data := by
  intro h
  have h0 : ';' ∈ (jsSanitize s).data := List.take_subset _ _ h
  exact semi_not_mem_sanitized s h0

theorem cleanTitle_length (s : String) :
    (cleanTitleStr s).data.length ≤ 100 := by
  simp [cleanTitleStr]

/-- Two adjacent characters are never both whitespace (the shape of a
collapsed whitespace run). -/
def noWSPair (a b : Char) : Prop := isWS a = false ∨ isWS b = false

theorem noWSPair_symm {a b : Char} (h : noWSPair a b) : noWSPair b a :=
  Or.symm h

theorem collapseWSAux_chain :
    ∀ (l : List Char) (b : Bool),
      (collapseWSAux b l).Chain' noWSPair ∧
        (b = true →
          ∀ c, (collapseWSAux b l).head? = some c → isWS c = false) := by
  intro l
  induction l with
  | nil => intro b; exact ⟨List.chain'_nil, by intro _ c hc; cases hc⟩
  | cons a rest ih =>
    intro b
    by_cases hws : isWS a = true
    · cases b with
      | true =>
        simpa [collapseWSAux, hws] using ih true
      | false =>
        simp only [collapseWSAux, hws, if_pos, if_neg]
        constructor
        · refine List.chain'_cons'.mpr ⟨?_, (ih true).1⟩
          intro y hy
          exact Or.inr ((ih true).2 rfl y hy)
        · intro hb; cases hb
    · have : collapseWSAux b (a :: rest) = a :: collapseWSAux false rest := by
        simp [collapseWSAux, hws]
      rw [this]
      constructor
      · refine List.chain'_cons'.mpr ⟨?_, (ih false).1⟩
        intro y _
        exact Or.inl (by simpa using hws)
      · intro _ c hc
        simp only [List.head?_cons, Option.some.injEq] at hc
        rw [← hc]
        simpa using hws

theorem collapseWS_chain (l : List Char) :
    (collapseWS l).Chain' noWSPair :=
  (collapseWSAux_chain l false).1

theorem chain'_of_reverse {l : List Char}
    (h : l.Chain' noWSPair) : l.reverse.Chain' noWSPair :=
  List.chain'_reverse.mpr (h.imp fun _ _ hab => noWSPair_symm hab)

theorem trimChars_chain {l : List Char} (h : l.Chain' noWSPair) :
    (trimChars l).Chain' noWSPair := by
  have h1 : (l.dropWhile isWS).Chain' noWSPair :=
    h.suffix (List.dropWhile_suffix isWS)
  have h2 := chain'_of_reverse h1
  have h3 : ((l.dropWhile isWS).reverse.dropWhile isWS).Chain' noWSPair :=
    h2.suffix (List.dropWhile_suffix isWS)
  exact chain'_of_reverse h3

theorem sanitize_chain (s : String) :
    (jsSanitize s).data.Chain' noWSPair :=
  trimChars_chain (collapseWS_chain (replaceDelims s.data))

theorem cleanTitle_chain (s : String) :
    (cleanTitleStr s).data.Chain' noWSPair :=
  List.Chain'.take (trimChars_chain (collapseWS_chain (replaceDelims s.data)))
    100

theorem head_dropWhile_isWS {l : List Char} {c : Char}
    (h : (l.dropWhile isWS).head? = some c) : isWS c = false := by
  have := List.head?_dropWhile_not isWS l
  rw [h] at this
  exact this

theorem trimChars_head {l : List Char} {c : Char}
    (h : (trimChars l).head? = some c) : isWS c = false := by
  simp only [trimChars, List.head?_reverse] at h
  have hne : (l.dropWhile isWS).reverse.dropWhile isWS ≠ [] := by
    intro e; rw [e] at h; cases h
  obtain ⟨t, ht⟩ := List.dropWhile_suffix (l := (l.dropWhile isWS).reverse)
    isWS
  have : ((l.dropWhile isWS).reverse).getLast? = some c := by
    rw [← ht, List.getLast?_append]
    rw [List.getLast?_eq_head?_reverse] at h ⊢
    simp [h]
  rw [List.getLast?_reverse] at this
  exact head_dropWhile_isWS this

theorem trimChars_getLast {l : List Char} {c : Char}
    (h : (trimChars l).getLast? = some c) : isWS c = false := by
  simp only [trimChars, List.getLast?_reverse] at h
  exact head_dropWhile_isWS h

theorem sanitize_head {s : String} {c : Char}
    (h : (jsSanitize s).data.head? = some c) : isWS c = false :=
  trimChars_head h

theorem sanitize_getLast {s : String} {c : Char}
    (h : (jsSanitize s).data.getLast? = some c) : isWS c = false :=
  trimChars_getLast h

theorem cleanTitle_head {s : String} {c : Char}
    (h : (cleanTitleStr s).data.head? = some c) : isWS c = false := by
  simp only [cleanTitleStr, List.head?_take] at h
  split at h
  · cases h
  · exact trimChars_head h

/-! ## Split and join facts -/

theorem splitCharAux_not_sep {sep : Char} :
    ∀ (a acc : List Char), sep ∉ a →
      splitCharAux sep a acc = [acc.reverse ++ a] := by
  intro a
  induction a with
  | nil => intro acc _; simp [splitCharAux]
  | cons c rest ih =>
    intro acc h
    have hc : c ≠ sep := fun e => h (e ▸ List.mem_cons_self c rest)
    have hr : sep ∉ rest := fun hm => h (List.mem_cons_of_mem c hm)
    simp only [splitCharAux, if_neg (fun e => hc (by simpa using e))]
    rw [ih (c :: acc) hr]
    simp

theorem splitCharAux_append {sep : Char} :
    ∀ (a rest acc : List Char), sep ∉ a →
      splitCharAux sep (a ++ sep :: rest) acc =
        (acc.reverse ++ a) :: splitCharAux sep rest [] := by
  intro a
  induction a with
  | nil =>
    intro rest acc _
    simp [splitCharAux]
  | cons c a' ih =>
    intro rest acc h
    have hc : c ≠ sep := fun e => h (e ▸ List.mem_cons_self c a')
    have ha : sep ∉ a' := fun hm => h (List.mem_cons_of_mem c hm)
    simp only [List.cons_append, splitCharAux,
      if_neg (fun e => hc (by simpa using e))]
    rw [show a'.append (sep :: rest) = a' ++ sep :: rest from rfl,
      ih rest (c :: acc) ha]
    simp

theorem splitChar_not_sep {sep : Char} {a : List Char} (h : sep ∉ a) :
    splitChar sep a = [a] := by
  simpa using splitCharAux_not_sep a [] h

theorem splitChar_append {sep : Char} {a rest : List Char} (h : sep ∉ a) :
    splitChar sep (a ++ sep :: rest) = a :: splitChar sep rest := by
  simpa [splitChar] using splitCharAux_append a rest [] h

theorem splitChar_intercalate {sep : Char} :
    ∀ (ls : List (List Char)), ls ≠ [] → (∀ x ∈ ls, sep ∉ x) →
      splitChar sep (intercalateChar sep ls) = ls := by
  intro ls
  induction ls with
  | nil => intro h; exact absurd rfl h
  | cons x rest ih =>
    intro _ hs
    cases rest with
    | nil =>
      simpa [intercalateChar] using
        splitChar_not_sep (hs x (List.mem_cons_self x []))
    | cons y rest' =>
      have hx : sep ∉ x := hs x (List.mem_cons_self x _)
      rw [intercalateChar, splitChar_append hx,
        ih (by simp) (fun z hz => hs z (List.mem_cons_of_mem x hz))]

/-! ## Numeral parsing round trip -/

theorem toDigitsCore_acc (b : Nat) :
    ∀ (fuel n : Nat) (ds : List Char),
      Nat.toDigitsCore b fuel n ds = Nat.toDigitsCore b fuel n [] ++ ds := by
  intro fuel
  induction fuel with
  | zero => intro n ds; simp [Nat.toDigitsCore]
  | succ fuel ih =>
    intro n ds
    rw [Nat.toDigitsCore, Nat.toDigitsCore]
    by_cases h10 : n / b = 0
    · simp [h10]
    · rw [if_neg h10, if_neg h10, ih (n / b) [Nat.digitChar (n % b)],
        ih (n / b) (Nat.digitChar (n % b) :: ds), List.append_assoc]
      rfl

theorem toDigitsCore_ne_nil (b : Nat) (fuel n : Nat) (ds : List Char) :
    Nat.toDigitsCore b (fuel + 1) n ds ≠ [] := by
  rw [Nat.toDigitsCore]
  by_cases h10 : n / b = 0
  · simp [h10]
  · rw [if_neg h10, toDigitsCore_acc]
    simp

theorem digitChar_val {m : Nat} (h : m < 10) :
    (Nat.digitChar m).toNat - '0'.toNat = m := by
  interval_cases m <;> decide

theorem digitsVal_append_singleton (xs : List Char) (d : Char) :
    digitsVal (xs ++ [d]) = 10 * digitsVal xs + (d.toNat - '0'.toNat) := by
  simp [digitsVal, List.foldl_append]

theorem toDigitsCore_val :
    ∀ (fuel n : Nat), n < fuel →
      digitsVal (Nat.toDigitsCore 10 fuel n []) = n := by
  intro fuel
  induction fuel with
  | zero => intro n h; exact absurd h (Nat.not_lt_zero n)
  | succ fuel ih =>
    intro n h
    rw [Nat.toDigitsCore]
    by_cases h10 : n / 10 = 0
    · rw [if_pos h10]
      have hlt : n < 10 := by omega
      have : digitsVal [Nat.digitChar (n % 10)] = n % 10 := by
        simpa [digitsVal] using digitChar_val (Nat.mod_lt n (by decide))
      rw [this, Nat.mod_eq_of_lt hlt]
    · rw [if_neg h10]
      have hn0 : 0 < n := by
        rcases Nat.eq_zero_or_pos n with h0 | h0
        · exact absurd (by simp [h0]) h10
        · exact h0
      have hfuel : n / 10 < fuel :=
        lt_of_lt_of_le (Nat.div_lt_self hn0 (by decide)) (by omega)
      rw [toDigitsCore_acc, digitsVal_append_singleton, ih (n / 10) hfuel,
        digitChar_val (Nat.mod_lt n (by decide))]
      omega

theorem natRepr_data_eq (n : Nat) :
    (Nat.repr n).data = Nat.toDigitsCore 10 (n + 1) n [] := rfl

theorem natRepr_ne_nil (n : Nat) : (Nat.repr n).data ≠ [] := by
  rw [natRepr_data_eq]
  exact toDigitsCore_ne_nil 10 n n []

theorem digitsVal_natRepr (n : Nat) : digitsVal (Nat.repr n).data = n := by
  rw [natRepr_data_eq]
  exact toDigitsCore_val (n + 1) n (Nat.lt_succ_self n)

theorem takeWhile_natRepr (n : Nat) :
    ((Nat.repr n).data.takeWhile Char.isDigit) = (Nat.repr n).data :=
  List.takeWhile_eq_self_iff.mpr fun _ hc => natRepr_digits hc

theorem jsParseIntChars_num (i : Int) :
    jsParseIntChars (jsNumToString i).data = i := by
  cases i with
  | ofNat m =>
    have hdata : (jsNumToString (Int.ofNat m)).data = (Nat.repr m).data := rfl
    rw [hdata]
    obtain ⟨c, rest, hcr⟩ :
        ∃ c rest, (Nat.repr m).data = c :: rest := by
      cases h : (Nat.repr m).data with
      | nil => exact absurd h (natRepr_ne_nil m)
      | cons c rest => exact ⟨c, rest, rfl⟩
    have hcdig : c.isDigit = true := natRepr_digits (hcr ▸ List.mem_cons_self c rest)
    have hcne : c ≠ '-' := by
      intro e; rw [e] at hcdig; exact absurd hcdig (by decide)
    rw [hcr, jsParseIntChars, if_neg hcne]
    rw [← hcr, takeWhile_natRepr]
    have hne : ¬((Nat.repr m).data.isEmpty = true) := by
      simpa [List.isEmpty_iff] using natRepr_ne_nil m
    rw [if_neg (by rw [hcr] at hne ⊢; exact hne), digitsVal_natRepr]
    rfl
  | negSucc m =>
    have hdata : (jsNumToString (Int.negSucc m)).data
        = '-' :: (Nat.repr (m + 1)).data := rfl
    rw [hdata, jsParseIntChars, if_pos rfl, takeWhile_natRepr]
    have hne : ¬((Nat.repr (m + 1)).data.isEmpty = true) := by
      simpa [List.isEmpty_iff] using natRepr_ne_nil (m + 1)
    rw [if_neg hne, digitsVal_natRepr]
    rfl

/-! ## Record structure facts -/

theorem string_eq_empty_iff (s : String) : s = "" ↔ s.data = [] := by
  constructor
  · intro h; rw [h]
  · intro h
    cases s with
    | mk d =>
      have hd : d = [] := h
      rw [hd]

theorem string_mk_data (s : String) : String.mk s.data = s := rfl

theorem mapMk_mapData (l : List String) :
    (l.map String.data).map String.mk = l := by
  induction l with
  | nil => rfl
  | cons x rest ih => simp [ih, string_mk_data]

theorem mkRecord_data (ts : Int) (cat sym title : String) :
    (mkRecord ts cat sym title).data =
      (jsNumToString ts).data ++ ';' :: (cat.data ++ ';' ::
        (sym.data ++ ';' :: title.data)) := rfl

theorem mkRecord_ne_empty (ts : Int) (cat sym title : String) :
    mkRecord ts cat sym title ≠ "" := by
  intro h
  rw [string_eq_empty_iff, mkRecord_data] at h
  simp at h

theorem pipe_not_mem_mkRecord {ts : Int} {cat sym title : String}
    (hcat : '|' ∉ cat.data) (hsym : '|' ∉ sym.data)
    (htitle : '|' ∉ title.data) :
    '|' ∉ (mkRecord ts cat sym title).data := by
  rw [mkRecord_data]
  intro h
  rcases List.mem_append.mp h with h | h
  · exact pipe_not_mem_num ts h
  · rcases List.mem_cons.mp h with h | h
    · cases h
    · rcases List.mem_append.mp h with h | h
      · exact hcat h
      · rcases List.mem_cons.mp h with h | h
        · cases h
        · rcases List.mem_append.mp h with h | h
          · exact hsym h
          · rcases List.mem_cons.mp h with h | h
            · cases h
            · exact htitle h

theorem splitChar_semi_mkRecord (ts : Int) (cat sym title : String)
    (hcat : ';' ∉ cat.data) :
    splitChar ';' (mkRecord ts cat sym title).data =
      (jsNumToString ts).data :: cat.data ::
        splitChar ';' (sym.data ++ ';' :: title.data) := by
  rw [mkRecord_data, splitChar_append (semi_not_mem_num ts),
    splitChar_append hcat]

theorem recKey_mkRecord (ts : Int) (cat sym title : String) :
    recKey (mkRecord ts cat sym title) = ts := by
  rw [recKey, mkRecord_data, splitChar_append (semi_not_mem_num ts)]
  simpa using jsParseIntChars_num ts

theorem isOnchainRecord_mkRecord (ts : Int) (cat sym title : String)
    (hcat : ';' ∉ cat.data) :
    (isOnchainRecord (mkRecord ts cat sym title) = true) ↔ cat = "ONCHAIN" := by
  rw [isOnchainRecord, splitChar_semi_mkRecord ts cat sym title hcat]
  simp [string_mk_data]

/-! ## Upper-casing keeps `|` out -/

theorem toUpper_eq_pipe {c : Char} (h : c.toUpper = '|') : c = '|' := by
  simp only [Char.toUpper] at h
  split at h
  · rename_i hcond
    have h124 : (Char.ofNat (c.toNat - 32)).toNat = '|'.toNat := by rw [h]
    have hlo : 65 ≤ c.toNat - 32 := by omega
    have hhi : c.toNat - 32 ≤ 90 := by omega
    set m := c.toNat - 32 with hm
    interval_cases m <;> exact absurd h124 (by decide)
  · exact h

theorem pipe_not_mem_toUpper {s : String} (h : '|' ∉ s.data) :
    '|' ∉ (jsToUpperS s).data := by
  intro hm
  simp only [jsToUpperS, List.mem_map] at hm
  obtain ⟨c, hc, he⟩ := hm
  exact h (toUpper_eq_pipe he ▸ hc)

/-! ## Split chunks only hold input characters -/

theorem splitCharAux_subset {sep : Char} :
    ∀ (l acc x : List Char), x ∈ splitCharAux sep l acc →
      ∀ c ∈ x, c ∈ l ∨ c ∈ acc := by
  intro l
  induction l with
  | nil =>
    intro acc x hx c hc
    simp only [splitCharAux, List.mem_singleton] at hx
    rw [hx] at hc
    exact Or.inr (List.mem_reverse.mp hc)
  | cons a rest ih =>
    intro acc x hx c hc
    simp only [splitCharAux] at hx
    by_cases ha : a = sep
    · rw [if_pos ha] at hx
      rcases List.mem_cons.mp hx with hx | hx
      · rw [hx] at hc
        exact Or.inr (List.mem_reverse.mp hc)
      · rcases ih [] x hx c hc with h | h
        · exact Or.inl (List.mem_cons_of_mem a h)
        · cases h
    · rw [if_neg ha] at hx
      rcases ih (a :: acc) x hx c hc with h | h
      · exact Or.inl (List.mem_cons_of_mem a h)
      · rcases List.mem_cons.mp h with h | h
        · exact Or.inl (h ▸ List.mem_cons_self a rest)
        · exact Or.inr h

theorem splitChar_subset {sep : Char} {l x : List Char}
    (hx : x ∈ splitChar sep l) {c : Char} (hc : c ∈ x) : c ∈ l := by
  rcases splitCharAux_subset l [] x hx c hc with h | h
  · exact h
  · cases h

theorem symbolSegs_pipe_free {s : String} (h : '|' ∉ s.data) :
    ∀ seg ∈ symbolSegs s, '|' ∉ seg.data := by
  intro seg hseg hmem
  simp only [symbolSegs, List.mem_map] at hseg
  obtain ⟨chunk, hchunk, he⟩ := hseg
  have h1 : '|' ∈ trimChars chunk := by rw [← he] at hmem; exact hmem
  have h2 : '|' ∈ chunk := mem_trimChars h1
  exact pipe_not_mem_toUpper h (splitChar_subset hchunk h2)

/-! ## Stable sort facts (generic) -/

section StableSort

variable {α : Type u} (r : α → α → Prop) [DecidableRel r]

theorem orderedInsert_of_forall_rel {x : α} {l : List α}
    (h : ∀ z ∈ l, r x z) : l.orderedInsert r x = x :: l := by
  cases l with
  | nil => rfl
  | cons b t =>
    rw [List.orderedInsert, if_pos (h b (List.mem_cons_self b t))]

theorem filter_orderedInsert [IsTrans α r] (p : α → Bool) (x : α) :
    ∀ l : List α, l.Sorted r →
      (l.orderedInsert r x).filter p =
        if p x then (l.filter p).orderedInsert r x else l.filter p := by
  intro l
  induction l with
  | nil =>
    intro _
    cases hp : p x <;> simp [List.orderedInsert, hp]
  | cons b t ih =>
    intro hsort
    by_cases hrb : r x b
    · rw [List.orderedInsert, if_pos hrb]
      cases hp : p x with
      | true =>
        have hall : ∀ z ∈ (b :: t).filter p, r x z := by
          intro z hz
          have hz' : z ∈ b :: t := List.mem_of_mem_filter hz
          rcases List.mem_cons.mp hz' with h1 | h1
          · exact h1 ▸ hrb
          · exact IsTrans.trans x b z hrb (List.rel_of_sorted_cons hsort z h1)
        rw [if_pos (by simp), orderedInsert_of_forall_rel r hall,
          List.filter_cons_of_pos (by simp [hp])]
      | false =>
        rw [if_neg (by simp), List.filter_cons_of_neg (by simp [hp])]
    · rw [List.orderedInsert, if_neg hrb]
      have htail := ih hsort.of_cons
      cases hpb : p b with
      | true =>
        rw [List.filter_cons_of_pos (by simp [hpb]),
          List.filter_cons_of_pos (by simp [hpb]), htail]
        cases hp : p x with
        | true =>
          rw [if_pos (by simp), if_pos (by simp), List.orderedInsert,
            if_neg hrb]
        | false =>
          rw [if_neg (by simp), if_neg (by simp)]
      | false =>
        rw [List.filter_cons_of_neg (by simp [hpb]),
          List.filter_cons_of_neg (by simp [hpb]), htail]

theorem filter_insertionSort [IsTotal α r] [IsTrans α r] (p : α → Bool) :
    ∀ l : List α, (l.insertionSort r).filter p =
      (l.filter p).insertionSort r := by
  intro l
  induction l with
  | nil => rfl
  | cons a t ih =>
    rw [List.insertionSort,
      filter_orderedInsert r p a _ (List.sorted_insertionSort r t), ih]
    cases hp : p a with
    | true =>
      rw [if_pos (by simp), List.filter_cons_of_pos (by simp [hp]),
        List.insertionSort]
    | false =>
      rw [if_neg (by simp), List.filter_cons_of_neg (by simp [hp])]

theorem insertionSort_of_forall_rel :
    ∀ l : List α, (∀ a ∈ l, ∀ b ∈ l, r a b) → l.insertionSort r = l := by
  intro l
  induction l with
  | nil => intro _; rfl
  | cons a t ih =>
    intro h
    rw [List.insertionSort,
      ih (fun x hx y hy =>
        h x (List.mem_cons_of_mem a hx) y (List.mem_cons_of_mem a hy)),
      orderedInsert_of_forall_rel r
        (fun z hz => h a (List.mem_cons_self a t) z
          (List.mem_cons_of_mem a hz))]

end StableSort

/-! ## The formatter output as a sorted record list -/

instance : IsTotal String recOrder :=
  ⟨fun a b => Int.le_total (recKey b) (recKey a)⟩

instance : IsTrans String recOrder :=
  ⟨fun _ _ _ hab hbc => le_trans hbc hab⟩

/-- The record list the formatter builds before sorting: news records in
article order, then on-chain records in buffer order (`includeArkham` is
always `true` on the request paths). -/
def preRecords (articles : List Article) (requestSymbols : Option String)
    (events : List ArkhamEvent) (now : Int) : List String :=
  newsRecords (symbolSetOf requestSymbols) now articles ++
    onchainRecords (symbolSetOf requestSymbols)
      (getRecentArkhamEvents now 24 events)

theorem formatForPineScript_eq (articles : List Article)
    (rs : Option String) (events : List ArkhamEvent) (now : Int) :
    formatForPineScript articles rs true events now =
      String.mk (intercalateChar '|'
        ((sortRecords (preRecords articles rs events now)).map
          String.data)) := rfl

/-- No `|` may leak into a record, and no record is empty:
the two facts the `|`-join/split round trip needs. -/
def goodRec (r : String) : Prop := r ≠ "" ∧ '|' ∉ r.data

/-- The requested-symbols string, when present, holds no `|`. -/
def pipeFreeSymbols (rs : Option String) : Prop :=
  ∀ s, rs = some s → '|' ∉ s.data

/-- Buffered events hold no `|` in their symbol or title. -/
def pipeFreeEvents (events : List ArkhamEvent) : Prop :=
  ∀ e ∈ events, '|' ∉ e.symbol.data ∧ '|' ∉ e.title.data

theorem detectSymbolAux_mem (text : List Char) :
    ∀ l : List String,
      detectSymbolAux text l = "CRYPTO" ∨ detectSymbolAux text l ∈ l := by
  intro l
  induction l with
  | nil => exact Or.inl rfl
  | cons sym rest ih =>
    rw [detectSymbolAux]
    by_cases hm : symbolMatches sym text = true
    · rw [if_pos hm]
      exact Or.inr (List.mem_cons_self sym rest)
    · rw [if_neg hm]
      rcases ih with h | h
      · exact Or.inl h
      · exact Or.inr (List.mem_cons_of_mem sym h)

theorem symbolSetOf_pipe_free {rs : Option String}
    (hs : pipeFreeSymbols rs) {l : List String}
    (hl : symbolSetOf rs = some l) : ∀ seg ∈ l, '|' ∉ seg.data := by
  cases rs with
  | none => cases hl
  | some s =>
    rw [symbolSetOf] at hl
    by_cases he : s = ""
    · rw [if_pos he] at hl; cases hl
    · rw [if_neg he] at hl
      cases hl
      exact symbolSegs_pipe_free (hs s rfl)

theorem newsRecord_good {rs : Option String} (hs : pipeFreeSymbols rs)
    (now : Int) (a : Article) :
    goodRec (newsRecord (symbolSetOf rs) now a) := by
  cases hset : symbolSetOf rs with
  | none =>
    show goodRec (mkRecord (a.pub.getD now) "NEWS" "CRYPTO"
      (cleanTitleStr (articleTitleOr a)))
    exact ⟨mkRecord_ne_empty _ _ _ _,
      pipe_not_mem_mkRecord (by decide) (by decide)
        (pipe_not_mem_cleanTitle _)⟩
  | some l =>
    show goodRec (mkRecord (a.pub.getD now) "NEWS"
      (detectSymbolAux (articleText a) l)
      (cleanTitleStr (articleTitleOr a)))
    have hsym : '|' ∉ (detectSymbolAux (articleText a) l).data := by
      rcases detectSymbolAux_mem (articleText a) l with h | h
      · rw [h]; decide
      · exact symbolSetOf_pipe_free hs hset _ h
    exact ⟨mkRecord_ne_empty _ _ _ _,
      pipe_not_mem_mkRecord (by decide) hsym (pipe_not_mem_cleanTitle _)⟩

theorem mem_onchainRecords {sset : Option (List String)}
    {recents : List ArkhamEvent} {r : String}
    (h : r ∈ onchainRecords sset recents) :
    ∃ e ∈ recents, passesSymbolFilter sset e = true ∧ r = onchainRecord e := by
  rw [onchainRecords] at h
  rw [List.mem_filterMap] at h
  obtain ⟨e, he, hr⟩ := h
  by_cases hp : passesSymbolFilter sset e = true
  · rw [if_pos hp] at hr
    exact ⟨e, he, hp, (Option.some.injEq _ _ ▸ hr).symm⟩
  · rw [if_neg hp] at hr
    cases hr

theorem preRecords_good {articles : List Article} {rs : Option String}
    {events : List ArkhamEvent} {now : Int} (hs : pipeFreeSymbols rs)
    (he : pipeFreeEvents events) :
    ∀ r ∈ preRecords articles rs events now, goodRec r := by
  intro r hr
  rcases List.mem_append.mp hr with hr | hr
  · rw [newsRecords] at hr
    obtain ⟨a, _, hra⟩ := List.mem_map.mp hr
    exact hra ▸ newsRecord_good hs now a
  · obtain ⟨e, hrec, _, hre⟩ := mem_onchainRecords hr
    have hev : e ∈ events :=
      (List.filter_sublist events).subset hrec
    obtain ⟨hsym, htit⟩ := he e hev
    rw [hre, onchainRecord]
    exact ⟨mkRecord_ne_empty _ _ _ _,
      pipe_not_mem_mkRecord (by decide) hsym htit⟩

theorem intercalate_map_data_ne_nil {recs : List String} (h0 : recs ≠ [])
    (hne : ∀ r ∈ recs, r ≠ "") :
    intercalateChar '|' (recs.map String.data) ≠ [] := by
  cases recs with
  | nil => exact absurd rfl h0
  | cons r rest =>
    cases rest with
    | nil =>
      have : r.data ≠ [] := by
        intro h
        exact hne r (List.mem_cons_self r []) (string_eq_empty_iff r |>.mpr h)
      simpa [intercalateChar] using this
    | cons y rest' =>
      simp [intercalateChar]

theorem recordsOf_mk_intercalate {recs : List String} (h0 : recs ≠ [])
    (hgood : ∀ r ∈ recs, goodRec r) :
    recordsOf (String.mk (intercalateChar '|' (recs.map String.data)))
      = recs := by
  rw [recordsOf,
    if_neg (by
      rw [string_eq_empty_iff]
      exact intercalate_map_data_ne_nil h0 fun r hr => (hgood r hr).1)]
  have hsplit :
      splitChar '|' (intercalateChar '|' (recs.map String.data))
        = recs.map String.data := by
    apply splitChar_intercalate
    · simpa using h0
    · intro x hx
      obtain ⟨r, hr, he⟩ := List.mem_map.mp hx
      exact he ▸ (hgood r hr).2
  rw [show (String.mk (intercalateChar '|' (recs.map String.data))).data
      = intercalateChar '|' (recs.map String.data) from rfl, hsplit,
    mapMk_mapData]

theorem sortRecords_perm (recs : List String) :
    (sortRecords recs).Perm recs :=
  List.perm_insertionSort recOrder recs

theorem recordsOf_format {articles : List Article} {rs : Option String}
    {events : List ArkhamEvent} {now : Int} (hs : pipeFreeSymbols rs)
    (he : pipeFreeEvents events) :
    recordsOf (formatForPineScript articles rs true events now)
      = sortRecords (preRecords articles rs events now) := by
  rw [formatForPineScript_eq]
  by_cases hpre : preRecords articles rs events now = []
  · rw [hpre]
    rfl
  · apply recordsOf_mk_intercalate
    · intro hsort
      have hperm := sortRecords_perm (preRecords articles rs events now)
      rw [hsort] at hperm
      exact hpre hperm.symm.eq_nil
    · intro r hr
      exact preRecords_good hs he r ((sortRecords_perm _).mem_iff.mp hr)

/-! ## Event buffer lemmas -/

theorem addArkhamEvent_some (e : ArkhamEvent) (buf : List ArkhamEvent) :
    addArkhamEvent (some e) buf = (e :: buf).take MAX_ARKHAM_EVENTS := by
  rw [addArkhamEvent]
  by_cases hl : (e :: buf).length > MAX_ARKHAM_EVENTS
  · rw [if_pos hl]
  · rw [if_neg hl, List.take_of_length_le (Nat.le_of_not_lt hl)]

theorem pushAll_take :
    ∀ (es : List ArkhamEvent) (buf : List ArkhamEvent),
      buf.length ≤ MAX_ARKHAM_EVENTS →
      pushAll es buf = (es.reverse ++ buf).take MAX_ARKHAM_EVENTS := by
  intro es
  induction es with
  | nil =>
    intro buf h
    simpa [pushAll] using (List.take_of_length_le h).symm
  | cons e rest ih =>
    intro buf h
    have hstep : pushAll (e :: rest) buf
        = pushAll rest (addArkhamEvent (some e) buf) := rfl
    rw [hstep, addArkhamEvent_some e buf,
      ih _ (by simp)]
    rw [List.reverse_cons, List.append_assoc]
    have hsingle : [e] ++ buf = e :: buf := rfl
    rw [hsingle, List.take_append_eq_append_take,
      List.take_append_eq_append_take, List.take_take,
      Nat.min_eq_left (Nat.sub_le _ _)]

/-- C4: after any sequence of pushes the buffer is the last 100 pushed
events, newest first; hence it never exceeds 100 and the oldest-pushed
events are the ones discarded. -/
theorem eventBuffer_bounded_spec (es : List ArkhamEvent) :
    pushAll es [] = es.reverse.take MAX_ARKHAM_EVENTS ∧
      (pushAll es []).length ≤ MAX_ARKHAM_EVENTS := by
  have h := pushAll_take es [] (by simp [MAX_ARKHAM_EVENTS])
  rw [List.append_nil] at h
  refine ⟨h, ?_⟩
  rw [h]
  simp

/-! ## C8: the recency window is strict -/

/-- An event lying exactly on the claimed window boundary. -/
def recentCexEvent : ArkhamEvent :=
  ⟨3600, "ONCHAIN", "BTC", "boundary", "", emptyWebhook⟩

/-- C8 counterexample: with `now = 90000` and a 24-hour window the cutoff is
`3600`; an event with timestamp exactly `3600` satisfies the claimed
`timestamp ≥ now - windowHours*3600` but the code excludes it. -/
theorem getRecent_boundary_cex :
    getRecentArkhamEvents 90000 24 [recentCexEvent] = [] ∧
      (90000 : Int) - 24 * 3600 ≤ recentCexEvent.timestamp := by
  exact ⟨rfl, by decide⟩

/-- C8 (amended): `getRecentArkhamEvents` returns, in buffer order and
without mutation, exactly the events with `timestamp` strictly greater than
`now - hoursBack*3600`. -/
theorem getRecent_window_spec (now hoursBack : Int)
    (events : List ArkhamEvent) :
    (getRecentArkhamEvents now hoursBack events).Sublist events ∧
      ∀ e, e ∈ getRecentArkhamEvents now hoursBack events ↔
        (e ∈ events ∧ now - hoursBack * 3600 < e.timestamp) := by
  refine ⟨List.filter_sublist events, ?_⟩
  intro e
  simp [getRecentArkhamEvents, List.mem_filter]

/-- Witness for C8's amended theorem at a concrete boundary input. -/
theorem getRecent_window_spec_witness :
    recentCexEvent ∉ getRecentArkhamEvents 90000 24 [recentCexEvent] :=
  fun h =>
    absurd (((getRecent_window_spec 90000 24 [recentCexEvent]).2
      recentCexEvent).mp h).2 (by decide)

/-! ## C3: rate limiter -/

theorem fetchNews_same_day (today : String) (c : Nat)
    (upstream : Except Unit (List Article)) :
    fetchNewsFromAPI today upstream ⟨c, today⟩ =
      if c ≥ MAX_REQUESTS_PER_DAY then
        (.error .rateLimited, ⟨c, today⟩)
      else
        match upstream with
        | .ok articles => (.ok articles, ⟨c + 1, today⟩)
        | .error _ => (.error .upstream, ⟨c, today⟩) := by
  simp only [fetchNewsFromAPI, resetDailyCountIfNeeded,
    if_neg (show ¬(today ≠ today) from fun h => h rfl)]

theorem iterateFetch_count (today : String) (articles : List Article) :
    ∀ (n c : Nat), c + n ≤ MAX_REQUESTS_PER_DAY →
      iterateFetch today articles n ⟨c, today⟩ = ⟨c + n, today⟩ := by
  intro n
  induction n with
  | zero => intro c _; simp [iterateFetch]
  | succ n ih =>
    intro c h
    rw [iterateFetch, fetchNews_same_day,
      if_neg (by simp only [MAX_REQUESTS_PER_DAY] at h ⊢; omega)]
    have := ih (c + 1) (by omega)
    rw [this]
    congr 1
    omega

/-- C3: the fetch path lazily resets the counter on a day change; with the
upstream call succeeding, an acquisition succeeds and increments the counter
iff the counter is below the quota of 200, and otherwise the call fails with
the rate-limit error leaving the (post-reset) state unchanged; starting a day
at zero, each of the first 200 calls succeeds and the 201st is denied. -/
theorem rateLimiter_quota_spec :
    (∀ (today : String) (st : RateState), today ≠ st.lastResetDate →
        resetDailyCountIfNeeded today st = ⟨0, today⟩) ∧
    (∀ (today : String) (st : RateState), today = st.lastResetDate →
        resetDailyCountIfNeeded today st = st) ∧
    (∀ (today : String) (c : Nat) (articles : List Article),
        (c < MAX_REQUESTS_PER_DAY →
          fetchNewsFromAPI today (.ok articles) ⟨c, today⟩
            = (.ok articles, ⟨c + 1, today⟩)) ∧
        (c ≥ MAX_REQUESTS_PER_DAY →
          fetchNewsFromAPI today (.ok articles) ⟨c, today⟩
            = (.error .rateLimited, ⟨c, today⟩))) ∧
    (∀ (today : String) (articles : List Article) (n : Nat),
        n < MAX_REQUESTS_PER_DAY →
          (fetchNewsFromAPI today (.ok articles)
            (iterateFetch today articles n ⟨0, today⟩)).1 = .ok articles) ∧
    (∀ (today : String) (articles : List Article),
        (fetchNewsFromAPI today (.ok articles)
          (iterateFetch today articles MAX_REQUESTS_PER_DAY ⟨0, today⟩)).1
          = .error .rateLimited) := by
  refine ⟨?_, ?_, ?_, ?_, ?_⟩
  · intro today st h
    rw [resetDailyCountIfNeeded, if_pos h]
  · intro today st h
    rw [resetDailyCountIfNeeded, if_neg (by simp [h])]
  · intro today c articles
    constructor
    · intro h
      rw [fetchNews_same_day, if_neg (Nat.not_le_of_lt h)]
    · intro h
      rw [fetchNews_same_day, if_pos h]
  · intro today articles n h
    rw [iterateFetch_count today articles n 0 (by omega),
      fetchNews_same_day, if_neg (by omega)]
  · intro today articles
    rw [iterateFetch_count today articles MAX_REQUESTS_PER_DAY 0 (by omega),
      fetchNews_same_day, if_pos (by omega)]

/-- Witness for C3 at concrete states and days. -/
theorem rateLimiter_quota_spec_witness :
    resetDailyCountIfNeeded "tue" ⟨7, "mon"⟩ = ⟨0, "tue"⟩ ∧
      fetchNewsFromAPI "mon" (.ok []) ⟨0, "mon"⟩ = (.ok [], ⟨1, "mon"⟩) ∧
      fetchNewsFromAPI "mon" (.ok []) ⟨200, "mon"⟩
        = (.error .rateLimited, ⟨200, "mon"⟩) ∧
      (fetchNewsFromAPI "mon" (.ok [])
        (iterateFetch "mon" [] 200 ⟨0, "mon"⟩)).1 = .error .rateLimited := by
  refine ⟨rateLimiter_quota_spec.1 "tue" ⟨7, "mon"⟩ (by decide), ?_, ?_, ?_⟩
  · exact (rateLimiter_quota_spec.2.2.1 "mon" 0 []).1 (by decide)
  · exact (rateLimiter_quota_spec.2.2.1 "mon" 200 []).2 (by decide)
  · exact rateLimiter_quota_spec.2.2.2.2 "mon" []

/-! ## Ingestion field lemmas -/

theorem mkFieldsFrom_spec {now : Int} {al : Option Alert}
    {d m : Option JVal} {sym t1 amt : String} {f : EventFields}
    (h : mkFieldsFrom now al d m sym t1 amt = .ok f) :
    f.timestamp = now ∧ f.category = "ONCHAIN" ∧ f.symbol = sym ∧
      ∃ t0, f.title = jsSanitize t0 := by
  rw [mkFieldsFrom] at h
  split at h
  · split at h
    · cases h
    · rename_i t2
      cases h
      exact ⟨rfl, rfl, rfl, t1, rfl⟩
    · rename_i t2 heq
      cases h
      exact ⟨rfl, rfl, rfl, t2, rfl⟩
  · cases h
    exact ⟨rfl, rfl, rfl, t1, rfl⟩

theorem processCore_spec {now : Int} {tr : Option Transaction}
    {al : Option Alert} {d m : Option JVal} {f : EventFields}
    (h : processCore now tr al d m = .ok f) :
    f.timestamp = now ∧ f.category = "ONCHAIN" ∧
      ∃ t0, f.title = jsSanitize t0 := by
  simp only [processCore] at h
  split at h
  · split at h
    · cases h
    · obtain ⟨h1, h2, _, h4⟩ := mkFieldsFrom_spec h
      exact ⟨h1, h2, h4⟩
  · obtain ⟨h1, h2, _, h4⟩ := mkFieldsFrom_spec h
    exact ⟨h1, h2, h4⟩

theorem processArkhamEvent_some {now : Int} {w : Webhook} {e : ArkhamEvent}
    (h : processArkhamEvent now w = some e) :
    ∃ f, processCore now w.transaction w.alert w.description w.message
        = .ok f ∧ e = f.withRaw w := by
  rw [processArkhamEvent] at h
  split at h
  · rename_i e' heq
    rw [processArkhamEventE] at heq
    cases hc : processCore now w.transaction w.alert w.description
        w.message with
    | ok f =>
      rw [hc] at heq
      cases heq
      cases h
      exact ⟨f, rfl, rfl⟩
    | error er =>
      rw [hc] at heq
      cases heq
  · cases h

theorem processArkhamEvent_fields {now : Int} {w : Webhook}
    {e : ArkhamEvent} (h : processArkhamEvent now w = some e) :
    e.timestamp = now ∧ e.category = "ONCHAIN" ∧
      ∃ t0, e.title = jsSanitize t0 := by
  obtain ⟨f, hf, he⟩ := processArkhamEvent_some h
  obtain ⟨h1, h2, h3⟩ := processCore_spec hf
  rw [he]
  exact ⟨h1, h2, h3⟩

/-! ## C9: events are stamped with arrival time -/

/-- C9: every event produced by ingestion carries `now` (the wall clock at
ingestion) as its timestamp, and the payload's own `timestamp` field is
ignored: changing it changes nothing about the produced event except the
opaque `raw` passthrough. -/
theorem ingest_timestamp_spec (now : Int) (w : Webhook) :
    (∀ e, processArkhamEvent now w = some e → e.timestamp = now) ∧
      ∀ tv, (processArkhamEvent now { w with timestamp := tv }).map stripRaw
        = (processArkhamEvent now w).map stripRaw := by
  constructor
  · intro e h
    exact (processArkhamEvent_fields h).1
  · intro tv
    cases w with
    | mk tr al d m ts =>
      simp only [processArkhamEvent, processArkhamEventE]
      cases hc : processCore now tr al d m with
      | ok f => simp [hc, Except.map, stripRaw, EventFields.withRaw]
      | error er => simp [hc, Except.map]

/-- Witness for C9: a payload carrying a bogus `timestamp` of 99 still
produces the same event fields as the bare payload, stamped at 7. -/
theorem ingest_timestamp_spec_witness :
    (processArkhamEvent 7 ⟨none, none, none, none, some (.jnum 99)⟩).map
        stripRaw
      = (processArkhamEvent 7 emptyWebhook).map stripRaw ∧
    ∃ e, processArkhamEvent 7 emptyWebhook = some e ∧ e.timestamp = 7 := by
  constructor
  · exact (ingest_timestamp_spec 7 emptyWebhook).2 (some (.jnum 99))
  · refine ⟨⟨7, "ONCHAIN", "CRYPTO", "On-chain activity detected", "",
      emptyWebhook⟩, rfl, ?_⟩
    exact (ingest_timestamp_spec 7 emptyWebhook).1 _ rfl

/-! ## C5: when ingestion returns absent -/

/-- A leaf field that, when present, is a string (so no string-method call on
it can throw). -/
def strOpt : Option JVal → Bool
  | some (.jnum _) => false
  | _ => true

/-- A payload whose inspected leaves are all strings when present. -/
def stringishW (w : Webhook) : Bool :=
  (match w.transaction with
   | some tx => strOpt tx.token && strOpt tx.asset && strOpt tx.symbol
   | none => true) &&
  (match w.alert with | some al => strOpt al.name | none => true) &&
  strOpt w.description && strOpt w.message

theorem firstTruthy_shape :
    ∀ l : List (Option JVal), (∀ o ∈ l, strOpt o = true) →
      firstTruthy l = none ∨ ∃ s, firstTruthy l = some (.jstr s) := by
  intro l
  induction l with
  | nil => intro _; exact Or.inl rfl
  | cons o rest ih =>
    intro h
    have ho := h o (List.mem_cons_self o rest)
    have hrest := fun o' ho' => h o' (List.mem_cons_of_mem o ho')
    cases o with
    | none => simpa [firstTruthy] using ih hrest
    | some v =>
      cases v with
      | jstr s =>
        by_cases ht : truthy (.jstr s) = true
        · exact Or.inr ⟨s, by simp [firstTruthy, ht]⟩
        · simpa [firstTruthy, ht] using ih hrest
      | jnum n => exact absurd ho (by simp [strOpt])

theorem txSymbol_ok {tx : Transaction} (ht : strOpt tx.token = true)
    (ha : strOpt tx.asset = true) (hs : strOpt tx.symbol = true) :
    ∃ s, txSymbol tx = .ok s := by
  rcases firstTruthy_shape [tx.token, tx.asset, tx.symbol] (by
    intro o ho
    rcases List.mem_cons.mp ho with h | h
    · exact h ▸ ht
    · rcases List.mem_cons.mp h with h | h
      · exact h ▸ ha
      · rcases List.mem_cons.mp h with h | h
        · exact h ▸ hs
        · cases h) with h | ⟨s, h⟩
  · exact ⟨"CRYPTO", by rw [txSymbol, h]⟩
  · exact ⟨jsToUpperS s, by rw [txSymbol, h]; rfl⟩

theorem truthyField_shape {o : Option JVal} (h : strOpt o = true) :
    truthyField o = none ∨ ∃ s, truthyField o = some (.jstr s) := by
  cases o with
  | none => exact Or.inl rfl
  | some v =>
    cases v with
    | jstr s =>
      by_cases ht : truthy (.jstr s) = true
      · exact Or.inr ⟨s, by simp [truthyField, ht]⟩
      · exact Or.inl (by simp [truthyField, ht])
    | jnum n => exact absurd h (by simp [strOpt])

theorem fallbackTitle_ok {al : Option Alert} {d m : Option JVal}
    (hal : strOpt (match al with | some a => a.name | none => none) = true)
    (hd : strOpt d = true) (hm : strOpt m = true) :
    ∃ o, fallbackTitle al d m = .ok o := by
  rcases truthyField_shape hal with h | ⟨s, h⟩
  · rcases truthyField_shape hd with h2 | ⟨s2, h2⟩
    · rcases truthyField_shape hm with h3 | ⟨s3, h3⟩
      · exact ⟨none, by rw [fallbackTitle.eq_def, h, h2, h3]⟩
      · exact ⟨some (String.mk (s3.data.take 100)),
          by rw [fallbackTitle.eq_def, h, h2, h3]; rfl⟩
    · exact ⟨some (String.mk (s2.data.take 100)),
        by rw [fallbackTitle.eq_def, h, h2]; rfl⟩
  · exact ⟨some s, by rw [fallbackTitle.eq_def, h]⟩

theorem mkFieldsFrom_ok {now : Int} {al : Option Alert} {d m : Option JVal}
    {sym t1 amt : String} (hfb : ∃ o, fallbackTitle al d m = .ok o) :
    ∃ f, mkFieldsFrom now al d m sym t1 amt = .ok f := by
  obtain ⟨o, ho⟩ := hfb
  rw [mkFieldsFrom]
  split
  · rw [ho]
    cases o with
    | none => exact ⟨_, rfl⟩
    | some t2 => exact ⟨_, rfl⟩
  · exact ⟨_, rfl⟩

/-- C5 counterexample: the empty payload has no usable fields at all, yet
ingestion returns a default event (not absent) and the endpoint answers 200
(not 400). -/
theorem ingest_empty_payload_cex :
    processArkhamEvent 1000 emptyWebhook
      = some ⟨1000, "ONCHAIN", "CRYPTO", "On-chain activity detected", "",
          emptyWebhook⟩ ∧
      (arkhamWebhookHandler 1000 emptyWebhook []).1
        = .ok "CRYPTO" "On-chain activity detected" 1000 := ⟨rfl, rfl⟩

/-- C5 (amended): ingestion never throws to its caller; a payload with no
usable fields still yields a (default) event rather than absent; every
payload whose inspected leaves are strings (when present) yields an event,
so absent arises only from extraction throwing on an ill-typed leaf; and the
endpoint answers 200 with the event summary exactly when an event was
produced and 400 exactly when ingestion returned absent. -/
theorem webhook_ingestion_spec :
    (∀ (now : Int) (tsv : Option JVal),
      processArkhamEvent now ⟨none, none, none, none, tsv⟩
        = some ⟨now, "ONCHAIN", "CRYPTO", "On-chain activity detected", "",
            ⟨none, none, none, none, tsv⟩⟩) ∧
    (∀ (now : Int) (w : Webhook), stringishW w = true →
      (processArkhamEvent now w).isSome = true) ∧
    (∀ (now : Int) (w : Webhook) (events : List ArkhamEvent),
      (∀ e, processArkhamEvent now w = some e →
        arkhamWebhookHandler now w events
          = (.ok e.symbol e.title e.timestamp,
              addArkhamEvent (some e) events)) ∧
      (processArkhamEvent now w = none →
        arkhamWebhookHandler now w events = (.badRequest, events))) := by
  refine ⟨fun now tsv => rfl, ?_, ?_⟩
  · intro now w h
    rw [stringishW] at h
    simp only [Bool.and_eq_true] at h
    obtain ⟨⟨⟨htr, hal⟩, hd⟩, hm⟩ := h
    have hok : ∃ f, processCore now w.transaction w.alert w.description
        w.message = .ok f := by
      have hfb : ∃ o, fallbackTitle w.alert w.description w.message
          = .ok o := by
        apply fallbackTitle_ok _ hd hm
        cases hA : w.alert with
        | none => rfl
        | some al => rw [hA] at hal; exact hal
      simp only [processCore]
      cases hT : w.transaction with
      | none => exact mkFieldsFrom_ok hfb
      | some tx =>
        rw [hT] at htr
        simp only [Bool.and_eq_true] at htr
        obtain ⟨⟨ht, ha⟩, hsy⟩ := htr
        obtain ⟨s, hsym⟩ := txSymbol_ok ht ha hsy
        simp only [hsym]
        exact mkFieldsFrom_ok hfb
    obtain ⟨f, hf⟩ := hok
    rw [processArkhamEvent, processArkhamEventE, hf]
    rfl
  · intro now w events
    constructor
    · intro e h
      rw [arkhamWebhookHandler, h]
    · intro h
      rw [arkhamWebhookHandler, h]

/-- Witness for C5's amended theorem: an all-string transaction payload
yields an event, and the empty payload is accepted with a 200 that stores
the default event. -/
theorem webhook_ingestion_spec_witness :
    (processArkhamEvent 3 ⟨some ⟨some (.jstr "btc"), none, none, none⟩,
        none, none, none, none⟩).isSome = true ∧
      arkhamWebhookHandler 1000 emptyWebhook []
        = (.ok "CRYPTO" "On-chain activity detected" 1000,
            [⟨1000, "ONCHAIN", "CRYPTO", "On-chain activity detected", "",
              emptyWebhook⟩]) := by
  constructor
  · exact webhook_ingestion_spec.2.1 3 _ (by decide)
  · exact (webhook_ingestion_spec.2.2 1000 emptyWebhook []).1
      ⟨1000, "ONCHAIN", "CRYPTO", "On-chain activity detected", "",
        emptyWebhook⟩ rfl

/-! ## C7: title sanitization -/

/-- A 101-character alert name. -/
def longName : String := String.mk (List.replicate 101 'a')

/-- C7 counterexample: a webhook title fed through `alert.name` is sanitized
but never truncated, so a produced event carries a 101-character title; and
an article title whose 100th character (after sanitization) is a space is
truncated after trimming, leaving a trailing space. -/
theorem title_sanitize_cex :
    (processArkhamEvent 5
        ⟨none, some ⟨some (.jstr longName)⟩, none, none, none⟩).map
          (fun e => e.title.data.length) = some 101 ∧
      (cleanTitleStr (String.mk
        (List.replicate 99 'a' ++ [' ', 'b', 'b']))).data.getLast?
        = some ' ' := by
  constructor
  · decide
  · decide

/-- C7 (amended): every title carried into the output — article or webhook —
contains neither `|` nor `;` and has whitespace runs collapsed (no two
adjacent whitespace characters).  Article titles are additionally at most
100 characters and never start with whitespace, but may end with one (the
truncation runs after the trim); webhook titles are fully trimmed at both
ends but are not length-limited. -/
theorem title_sanitize_spec :
    (∀ s : String,
      '|' ∉ (cleanTitleStr s).data ∧ ';' ∉ (cleanTitleStr s).data ∧
        (cleanTitleStr s).data.Chain' noWSPair ∧
        (cleanTitleStr s).data.length ≤ 100 ∧
        (∀ c, (cleanTitleStr s).data.head? = some c → isWS c = false)) ∧
    ∀ (now : Int) (w : Webhook) (e : ArkhamEvent),
      processArkhamEvent now w = some e →
        '|' ∉ e.title.data ∧ ';' ∉ e.title.data ∧
          e.title.data.Chain' noWSPair ∧
          (∀ c, e.title.data.head? = some c → isWS c = false) ∧
          (∀ c, e.title.data.getLast? = some c → isWS c = false) := by
  constructor
  · intro s
    exact ⟨pipe_not_mem_cleanTitle s, semi_not_mem_cleanTitle s,
      cleanTitle_chain s, cleanTitle_length s, fun c hc => cleanTitle_head hc⟩
  · intro now w e h
    obtain ⟨_, _, t0, ht⟩ := processArkhamEvent_fields h
    rw [ht]
    exact ⟨pipe_not_mem_sanitized t0, semi_not_mem_sanitized t0,
      sanitize_chain t0, fun c hc => sanitize_head hc,
      fun c hc => sanitize_getLast hc⟩

/-- Witness for C7's amended theorem on a concrete dirty title and the
default webhook event. -/
theorem title_sanitize_spec_witness :
    '|' ∉ (cleanTitleStr "BTC soars!|; up 10%").data ∧
      '|' ∉ ("On-chain activity detected" : String).data :=
  ⟨(title_sanitize_spec.1 "BTC soars!|; up 10%").1,
    (title_sanitize_spec.2 1000 emptyWebhook
      ⟨1000, "ONCHAIN", "CRYPTO", "On-chain activity detected", "",
        emptyWebhook⟩ rfl).1⟩

/-! ## C6: the on-chain symbol filter -/

theorem string_data_inj {s t : String} (h : s.data = t.data) : s = t := by
  cases s with
  | mk d =>
    cases t with
    | mk d' => exact congrArg String.mk h

theorem onchainRecords_eq (sset : Option (List String)) :
    ∀ recents : List ArkhamEvent,
      onchainRecords sset recents
        = (recents.filter (passesSymbolFilter sset)).map onchainRecord := by
  intro recents
  induction recents with
  | nil => rfl
  | cons e rest ih =>
    have ih' : List.filterMap
        (fun e => if passesSymbolFilter sset e = true
          then some (onchainRecord e) else none) rest
        = (rest.filter (passesSymbolFilter sset)).map onchainRecord := ih
    cases hp : passesSymbolFilter sset e with
    | true => simp [onchainRecords, List.filterMap_cons,
        List.filter_cons, hp, ih']
    | false => simp [onchainRecords, List.filterMap_cons,
        List.filter_cons, hp, ih']

theorem passesSymbolFilter_iff (sset : Option (List String))
    (e : ArkhamEvent) :
    passesSymbolFilter sset e = true ↔
      (sset = none ∨ ∃ l, sset = some l ∧
        (e.symbol ∈ l ∨ e.symbol = "CRYPTO")) := by
  cases sset with
  | none => simp [passesSymbolFilter]
  | some l =>
    simp only [passesSymbolFilter, List.contains, Bool.not_and,
      Bool.not_not, Bool.or_eq_true, Bool.not_eq_true']
    constructor
    · intro h
      refine Or.inr ⟨l, rfl, ?_⟩
      rcases h with h | h
      · exact Or.inl (List.elem_iff.mp h)
      · exact Or.inr (by simpa using h)
    · intro h
      rcases h with h | ⟨l', hl', h⟩
      · cases h
      · cases hl'
        rcases h with h | h
        · exact Or.inl (List.elem_iff.mpr h)
        · exact Or.inr (by simpa using h)

/-- C6: in `format`, an on-chain event is emitted iff there is no
requested-symbols set, or the set contains its symbol, or its symbol is the
sentinel `'CRYPTO'` (the events considered are those of the 24-hour window,
in buffer order); and the two concrete scenarios of the spec: a buffered
`{T, BTC, "Large BTC transfer: $5.0M"}` event formatted with symbols `BTC`
yields exactly that single record, and with symbols `ETH` yields the empty
string. -/
theorem format_symbol_filter_spec :
    (∀ (sset : Option (List String)) (recents : List ArkhamEvent),
      onchainRecords sset recents
        = (recents.filter (passesSymbolFilter sset)).map onchainRecord) ∧
    (∀ (sset : Option (List String)) (e : ArkhamEvent),
      passesSymbolFilter sset e = true ↔
        (sset = none ∨ ∃ l, sset = some l ∧
          (e.symbol ∈ l ∨ e.symbol = "CRYPTO"))) ∧
    (∀ (now T : Int) (cat amt : String) (raw : Webhook),
      now - 24 * 3600 < T →
        formatForPineScript [] (some "BTC") true
          [⟨T, cat, "BTC", "Large BTC transfer: $5.0M", amt, raw⟩] now
          = jsNumToString T ++ ";ONCHAIN;BTC;Large BTC transfer: $5.0M") ∧
    (∀ (now T : Int) (cat amt : String) (raw : Webhook),
      formatForPineScript [] (some "ETH") true
        [⟨T, cat, "BTC", "Large BTC transfer: $5.0M", amt, raw⟩] now
        = "") := by
  refine ⟨onchainRecords_eq, passesSymbolFilter_iff, ?_, ?_⟩
  · intro now T cat amt raw hT
    have hrec : getRecentArkhamEvents now 24
        [⟨T, cat, "BTC", "Large BTC transfer: $5.0M", amt, raw⟩]
        = [⟨T, cat, "BTC", "Large BTC transfer: $5.0M", amt, raw⟩] := by
      simp only [getRecentArkhamEvents, List.filter]
      rw [show decide (now - 24 * 3600 < T) = true from decide_eq_true hT]
    rw [formatForPineScript_eq, preRecords, hrec]
    apply string_data_inj
    rw [String.data_append]
    show (jsNumToString T).data ++ (';' :: ("ONCHAIN".data ++ ';' ::
        ("BTC".data ++ ';' :: ("Large BTC transfer: $5.0M").data)))
      = (jsNumToString T).data
        ++ (";ONCHAIN;BTC;Large BTC transfer: $5.0M").data
    exact congrArg ((jsNumToString T).data ++ ·) (by decide)
  · intro now T cat amt raw
    rw [formatForPineScript_eq, preRecords]
    have hnil : onchainRecords (symbolSetOf (some "ETH"))
        (getRecentArkhamEvents now 24
          [⟨T, cat, "BTC", "Large BTC transfer: $5.0M", amt, raw⟩]) = [] := by
      refine List.filterMap_eq_nil_iff.mpr ?_
      intro a ha
      have ha2 : a ∈ [(⟨T, cat, "BTC", "Large BTC transfer: $5.0M", amt,
          raw⟩ : ArkhamEvent)] := (List.filter_sublist _).subset ha
      rw [List.mem_singleton] at ha2
      subst ha2
      have hpf : passesSymbolFilter (symbolSetOf (some "ETH"))
          ⟨T, cat, "BTC", "Large BTC transfer: $5.0M", amt, raw⟩
          = false := rfl
      rw [if_neg (by rw [hpf]; exact Bool.false_ne_true)]
    rw [hnil]
    rfl

/-! ## C2: the output is sorted by timestamp, stably -/

/-- C2: the records of the formatted output, split on `|`, are a permutation
of the pre-sort records (news records in article order, then the window's
on-chain records in buffer order), are ordered by their re-parsed leading
timestamp descending, and for every timestamp value the records carrying it
appear in exactly their pre-sort relative order (stability); the re-parsed
timestamp of a news record is the article's publish time (current time when
absent) and that of an on-chain record is the event's timestamp. -/
theorem format_sorted_stable (articles : List Article) (rs : Option String)
    (events : List ArkhamEvent) (now : Int) (hs : pipeFreeSymbols rs)
    (he : pipeFreeEvents events) :
    (recordsOf (formatForPineScript articles rs true events now)).Pairwise
        recOrder ∧
      (recordsOf (formatForPineScript articles rs true events now)).Perm
        (preRecords articles rs events now) ∧
      (∀ t : Int,
        (recordsOf (formatForPineScript articles rs true events
          now)).filter (fun r => decide (recKey r = t))
          = (preRecords articles rs events now).filter
              (fun r => decide (recKey r = t))) ∧
      (∀ a : Article,
        recKey (newsRecord (symbolSetOf rs) now a) = a.pub.getD now) ∧
      (∀ e : ArkhamEvent, recKey (onchainRecord e) = e.timestamp) := by
  rw [recordsOf_format hs he]
  refine ⟨List.sorted_insertionSort recOrder _, sortRecords_perm _, ?_,
    ?_, ?_⟩
  · intro t
    rw [sortRecords,
      filter_insertionSort recOrder (fun r => decide (recKey r = t)) _]
    apply insertionSort_of_forall_rel
    intro a ha b hb
    have hat : recKey a = t :=
      of_decide_eq_true (List.mem_filter.mp ha).2
    have hbt : recKey b = t :=
      of_decide_eq_true (List.mem_filter.mp hb).2
    show recKey b ≤ recKey a
    rw [hat, hbt]
  · intro a
    exact recKey_mkRecord _ _ _ _
  · intro e
    exact recKey_mkRecord _ _ _ _

/-- Sample inputs for the C2 witness. -/
def c2Article1 : Article := ⟨some "Alpha", none, some 200⟩

def c2Article2 : Article := ⟨some "Beta", none, some 100⟩

def c2Event : ArkhamEvent := ⟨150, "ONCHAIN", "BTC", "big move", "",
  emptyWebhook⟩

/-- Witness for C2 on two articles straddling one on-chain event. -/
theorem format_sorted_stable_witness :
    (recordsOf (formatForPineScript [c2Article1, c2Article2] (some "BTC")
        true [c2Event] 1000)).Pairwise recOrder :=
  (format_sorted_stable [c2Article1, c2Article2] (some "BTC") [c2Event] 1000
    (fun s h => by injection h with h2; rw [← h2]; decide)
    (fun e he => by
      rw [List.mem_singleton] at he
      subst he
      exact ⟨by decide, by decide⟩)).1

/-! ## C10: on-chain records are independent of the timeframe -/

theorem isOnchainRecord_newsRecord (sset : Option (List String)) (now : Int)
    (a : Article) : isOnchainRecord (newsRecord sset now a) = false := by
  cases sset with
  | none =>
    show isOnchainRecord (mkRecord (a.pub.getD now) "NEWS" "CRYPTO"
      (cleanTitleStr (articleTitleOr a))) = false
    apply Bool.eq_false_iff.mpr
    intro h
    exact absurd ((isOnchainRecord_mkRecord _ _ _ _ (by decide)).mp h)
      (by decide)
  | some l =>
    show isOnchainRecord (mkRecord (a.pub.getD now) "NEWS"
      (detectSymbolAux (articleText a) l)
      (cleanTitleStr (articleTitleOr a))) = false
    apply Bool.eq_false_iff.mpr
    intro h
    exact absurd ((isOnchainRecord_mkRecord _ _ _ _ (by decide)).mp h)
      (by decide)

theorem isOnchainRecord_onchainRecord (e : ArkhamEvent) :
    isOnchainRecord (onchainRecord e) = true :=
  (isOnchainRecord_mkRecord e.timestamp "ONCHAIN" e.symbol e.title
    (by decide)).mpr rfl

theorem filter_onchain_preRecords (articles : List Article)
    (rs : Option String) (events : List ArkhamEvent) (now : Int) :
    (preRecords articles rs events now).filter isOnchainRecord
      = onchainRecords (symbolSetOf rs)
          (getRecentArkhamEvents now 24 events) := by
  rw [preRecords, List.filter_append]
  have h1 : (newsRecords (symbolSetOf rs) now articles).filter
      isOnchainRecord = [] := by
    apply List.filter_eq_nil_iff.mpr
    intro r hr
    obtain ⟨a, _, hra⟩ := List.mem_map.mp hr
    rw [← hra, isOnchainRecord_newsRecord]
    exact Bool.false_ne_true
  have h2 : (onchainRecords (symbolSetOf rs)
      (getRecentArkhamEvents now 24 events)).filter isOnchainRecord
      = onchainRecords (symbolSetOf rs)
          (getRecentArkhamEvents now 24 events) := by
    apply List.filter_eq_self.mpr
    intro r hr
    obtain ⟨e, _, _, hre⟩ := mem_onchainRecords hr
    rw [hre]
    exact isOnchainRecord_onchainRecord e
  rw [h1, h2, List.nil_append]

theorem format_onchain_records {articles : List Article}
    {rs : Option String} {events : List ArkhamEvent} {now : Int}
    (hs : pipeFreeSymbols rs) (he : pipeFreeEvents events) :
    (recordsOf (formatForPineScript articles rs true events now)).filter
        isOnchainRecord
      = sortRecords (onchainRecords (symbolSetOf rs)
          (getRecentArkhamEvents now 24 events)) := by
  rw [recordsOf_format hs he, sortRecords,
    filter_insertionSort recOrder isOnchainRecord _,
    filter_onchain_preRecords]
  rfl

theorem cryptoNewsFetchPath_ok_shape {nowMs : Int} {today : String}
    {sy : Option String} {key : String} {cached : Option CacheEntry}
    {upstream : Except Unit (List Article)} {st : ServerState} {b : String}
    (h : (cryptoNewsFetchPath nowMs today sy key cached upstream st).1
      = .ok b) :
    ∃ arts, b = formatForPineScript arts sy true st.arkhamEvents
      (nowMs / 1000) := by
  simp only [cryptoNewsFetchPath] at h
  split at h
  · rename_i articles rl' heq
    exact ⟨articles, by simpa using h.symm⟩
  · split at h
    · rename_i ce
      exact ⟨ce.articles, by simpa using h.symm⟩
    · split at h
      · exact ⟨[], by simpa using h.symm⟩
      · simp at h

theorem cryptoNewsHandler_ok_shape {nowMs : Int} {today : String}
    {sy kw tf : Option String} {upstream : Except Unit (List Article)}
    {st : ServerState} {b : String}
    (h : (cryptoNewsHandler nowMs today sy kw tf upstream st).1 = .ok b) :
    ∃ arts, b = formatForPineScript arts sy true st.arkhamEvents
      (nowMs / 1000) := by
  simp only [cryptoNewsHandler] at h
  split at h
  · simp at h
  · split at h
    · rename_i ce heq
      split at h
      · exact ⟨ce.articles, by simpa using h.symm⟩
      · exact cryptoNewsFetchPath_ok_shape h
    · exact cryptoNewsFetchPath_ok_shape h

/-- C10: two `/crypto-news` requests that differ only in `timeframe` (and,
as a consequence, in the upstream articles they end up formatting) carry
exactly the same on-chain records in their 200 responses: the merge always
draws on-chain events from the fixed 24-hour window, so the timeframe
influences only the news side. -/
theorem onchain_timeframe_invariance (nowMs : Int) (today : String)
    (sy kw tf1 tf2 : Option String) (up1 up2 : Except Unit (List Article))
    (st : ServerState) (b1 b2 : String) (hs : pipeFreeSymbols sy)
    (he : pipeFreeEvents st.arkhamEvents)
    (h1 : (cryptoNewsHandler nowMs today sy kw tf1 up1 st).1 = .ok b1)
    (h2 : (cryptoNewsHandler nowMs today sy kw tf2 up2 st).1 = .ok b2) :
    (recordsOf b1).filter isOnchainRecord
      = (recordsOf b2).filter isOnchainRecord := by
  obtain ⟨a1, hb1⟩ := cryptoNewsHandler_ok_shape h1
  obtain ⟨a2, hb2⟩ := cryptoNewsHandler_ok_shape h2
  rw [hb1, hb2, format_onchain_records hs he, format_onchain_records hs he]

/-- Witness for C10: one run fetches an article, the other fetches none
(as a different timeframe key would), over the same buffered event. -/
theorem onchain_timeframe_invariance_witness :
    (recordsOf (formatForPineScript [c2Article1] (some "BTC") true
        [c2Event] 1000)).filter isOnchainRecord
      = (recordsOf (formatForPineScript [] (some "BTC") true
          [c2Event] 1000)).filter isOnchainRecord :=
  onchain_timeframe_invariance 1000000 "mon" (some "BTC") none
    (some "24") (some "48") (.ok [c2Article1]) (.ok [])
    ⟨[], ⟨0, "mon"⟩, [c2Event]⟩ _ _
    (fun s h => by injection h with h2; rw [← h2]; decide)
    (fun e he => by
      rw [List.mem_singleton] at he
      subst he
      exact ⟨by decide, by decide⟩)
    rfl rfl

/-! ## C1: the read-path fallback policy -/

theorem fetchNews_error_shape (today : String) (st : RateState) :
    ∃ er, fetchNewsFromAPI today (.error ()) st
      = (.error er, resetDailyCountIfNeeded today st) := by
  simp only [fetchNewsFromAPI]
  by_cases h : (resetDailyCountIfNeeded today st).count
      ≥ MAX_REQUESTS_PER_DAY
  · exact ⟨.rateLimited, by rw [if_pos h]⟩
  · exact ⟨.upstream, by rw [if_neg h]⟩

theorem cryptoNewsFetchPath_error (nowMs : Int) (today : String)
    (sy : Option String) (key : String) (cached : Option CacheEntry)
    (st : ServerState) :
    (cryptoNewsFetchPath nowMs today sy key cached (.error ()) st).1
      = match cached with
        | some ce => .ok (formatForPineScript ce.articles sy true
            st.arkhamEvents (nowMs / 1000))
        | none =>
          if formatForPineScript [] sy true st.arkhamEvents
              (nowMs / 1000) ≠ "" then
            .ok (formatForPineScript [] sy true st.arkhamEvents
              (nowMs / 1000))
          else .unavailable := by
  obtain ⟨er, her⟩ := fetchNews_error_shape today st.rl
  simp only [cryptoNewsFetchPath, her]
  cases cached with
  | some ce => rfl
  | none =>
    by_cases hf : formatForPineScript [] sy true st.arkhamEvents
        (nowMs / 1000) ≠ ""
    · rw [if_pos hf, if_pos hf]
    · rw [if_neg hf, if_neg hf]

/-- C1: on the `/crypto-news` read path, with the upstream fetch failing and
the symbols parameter valid, a request whose key has any cache entry (fresh
or stale) is answered 200 with the stored raw articles re-merged with the
current event buffer; with no entry it degrades to formatting the current
on-chain events alone, and 503 is returned exactly when that on-chain-only
output is the empty string. -/
theorem crypto_news_fallback_spec (nowMs : Int) (today : String)
    (symbols keywords timeframe : Option String) (st : ServerState)
    (hv : tooManySymbols symbols = false) :
    (∀ ce, mapGet st.cache (generateCacheKey symbols keywords timeframe)
        = some ce →
      (cryptoNewsHandler nowMs today symbols keywords timeframe
          (.error ()) st).1
        = .ok (formatForPineScript ce.articles symbols true
            st.arkhamEvents (nowMs / 1000))) ∧
    (mapGet st.cache (generateCacheKey symbols keywords timeframe) = none →
      (cryptoNewsHandler nowMs today symbols keywords timeframe
          (.error ()) st).1
        = if formatForPineScript [] symbols true st.arkhamEvents
              (nowMs / 1000) ≠ "" then
            .ok (formatForPineScript [] symbols true st.arkhamEvents
              (nowMs / 1000))
          else .unavailable) := by
  constructor
  · intro ce hce
    simp only [cryptoNewsHandler, hv, Bool.false_eq_true, if_false, hce]
    by_cases hfresh : nowMs - ce.timestamp < CACHE_DURATION
    · rw [if_pos hfresh]
    · rw [if_neg hfresh, cryptoNewsFetchPath_error]
  · intro hnone
    simp only [cryptoNewsHandler, hv, Bool.false_eq_true, if_false, hnone]
    rw [cryptoNewsFetchPath_error]

/-- A cache entry used by the C1 witness. -/
def c1Entry : CacheEntry := ⟨"old", [c2Article1], 0⟩

/-- Witness for C1: a stale entry is re-served merged with the live buffer;
with no entry and an empty buffer the response is 503; with no entry and one
buffered event the response is the on-chain-only output. -/
theorem crypto_news_fallback_spec_witness :
    (cryptoNewsHandler 1000000 "mon" (some "BTC") none none (.error ())
        ⟨[("BTC_general_24", c1Entry)], ⟨0, "mon"⟩, [c2Event]⟩).1
      = .ok (formatForPineScript [c2Article1] (some "BTC") true [c2Event]
          1000) ∧
    (cryptoNewsHandler 1000000 "mon" (some "BTC") none none (.error ())
        ⟨[], ⟨0, "mon"⟩, []⟩).1 = .unavailable ∧
    (cryptoNewsHandler 1000000 "mon" (some "BTC") none none (.error ())
        ⟨[], ⟨0, "mon"⟩, [c2Event]⟩).1
      = .ok (formatForPineScript [] (some "BTC") true [c2Event] 1000) := by
  refine ⟨?_, ?_, ?_⟩
  · exact (crypto_news_fallback_spec 1000000 "mon" (some "BTC") none none
      ⟨[("BTC_general_24", c1Entry)], ⟨0, "mon"⟩, [c2Event]⟩ rfl).1
      c1Entry rfl
  · have h := (crypto_news_fallback_spec 1000000 "mon" (some "BTC") none
      none ⟨[], ⟨0, "mon"⟩, []⟩ rfl).2 rfl
    rw [h, if_neg (by decide)]
  · have h := (crypto_news_fallback_spec 1000000 "mon" (some "BTC") none
      none ⟨[], ⟨0, "mon"⟩, [c2Event]⟩ rfl).2 rfl
    rw [h, if_pos (by decide)]
    rfl

/-- Witness for C6's scenarios at `now = 1000`, `T = 500`. -/
theorem format_symbol_filter_spec_witness :
    formatForPineScript [] (some "BTC") true
        [⟨500, "ONCHAIN", "BTC", "Large BTC transfer: $5.0M", "",
          emptyWebhook⟩] 1000
      = jsNumToString 500 ++ ";ONCHAIN;BTC;Large BTC transfer: $5.0M" ∧
    formatForPineScript [] (some "ETH") true
        [⟨500, "ONCHAIN", "BTC", "Large BTC transfer: $5.0M", "",
          emptyWebhook⟩] 1000 = "" :=
  ⟨format_symbol_filter_spec.2.2.1 1000 500 "ONCHAIN" "" emptyWebhook
      (by decide),
    format_symbol_filter_spec.2.2.2 1000 500 "ONCHAIN" "" emptyWebhook⟩

end CryptoBridge
